import Mathlib

/-!
Verification of the local agent orchestrator in
`src/apps/sim/lib/copilot/local-agent.ts`: the JSON-schema normalizer
(`cleanJsonSchema`), the provider tool conversion (`convertToolsToAnthropic`),
the tool-count trimming, the tool dispatcher (`executeToolCall`) and the
streaming tool-execution loop (`createAnthropicStream`), shallowly embedded
as executable Lean definitions.

JavaScript values are modelled by `Json`: objects are ordered key/value lists
(JavaScript objects keep insertion order for the string keys used here and
never hold a key twice, which `keysNodup` expresses), numbers by `Int` (no
numeric edge cases are relevant to the claims), and a thrown `TypeError` by
`Except.error ()`.  The host regular-expression validity test
(`new RegExp(p)` succeeding) is abstracted as a boolean parameter `rv`.
-/

set_option maxHeartbeats 1000000
set_option maxRecDepth 100000

inductive Json where
  | null
  | bool (b : Bool)
  | num (n : Int)
  | str (s : String)
  | arr (elems : List Json)
  | obj (fields : List (String × Json))
  deriving Repr

namespace Json

mutual
def beqJ : Json → Json → Bool
  | .null, .null => true
  | .bool a, .bool b => a == b
  | .num a, .num b => a == b
  | .str a, .str b => a == b
  | .arr a, .arr b => beqL a b
  | .obj a, .obj b => beqF a b
  | _, _ => false
def beqL : List Json → List Json → Bool
  | [], [] => true
  | x :: xs, y :: ys => beqJ x y && beqL xs ys
  | _, _ => false
def beqF : List (String × Json) → List (String × Json) → Bool
  | [], [] => true
  | (k1, v1) :: xs, (k2, v2) :: ys => k1 == k2 && beqJ v1 v2 && beqF xs ys
  | _, _ => false
end

mutual
theorem beqJ_iff_eq : ∀ a b : Json, beqJ a b = true ↔ a = b
  | .null, .null => by simp [beqJ]
  | .bool _, .bool _ => by simp [beqJ]
  | .num _, .num _ => by simp [beqJ]
  | .str _, .str _ => by simp [beqJ]
  | .arr x, .arr y => by simp [beqJ, beqL_iff_eq x y]
  | .obj x, .obj y => by simp [beqJ, beqF_iff_eq x y]
  | .null, .bool _ | .null, .num _ | .null, .str _ | .null, .arr _ | .null, .obj _
  | .bool _, .null | .bool _, .num _ | .bool _, .str _ | .bool _, .arr _ | .bool _, .obj _
  | .num _, .null | .num _, .bool _ | .num _, .str _ | .num _, .arr _ | .num _, .obj _
  | .str _, .null | .str _, .bool _ | .str _, .num _ | .str _, .arr _ | .str _, .obj _
  | .arr _, .null | .arr _, .bool _ | .arr _, .num _ | .arr _, .str _ | .arr _, .obj _
  | .obj _, .null | .obj _, .bool _ | .obj _, .num _ | .obj _, .str _ | .obj _, .arr _ => by
    simp [beqJ]
theorem beqL_iff_eq : ∀ xs ys : List Json, beqL xs ys = true ↔ xs = ys
  | [], [] => by simp [beqL]
  | x :: xs, y :: ys => by simp [beqL, beqJ_iff_eq x y, beqL_iff_eq xs ys]
  | [], _ :: _ => by simp [beqL]
  | _ :: _, [] => by simp [beqL]
theorem beqF_iff_eq : ∀ xs ys : List (String × Json), beqF xs ys = true ↔ xs = ys
  | [], [] => by simp [beqF]
  | (k1, v1) :: xs, (k2, v2) :: ys => by
    simp [beqF, beqJ_iff_eq v1 v2, beqF_iff_eq xs ys, and_assoc]
  | [], _ :: _ => by simp [beqF]
  | _ :: _, [] => by simp [beqF]
end

instance : DecidableEq Json := fun a b =>
  decidable_of_iff (beqJ a b = true) (beqJ_iff_eq a b)

end Json

/-- Property lookup `obj[k]`: the value at the (unique) key, or `none`. -/
def jGet (k : String) (l : List (String × Json)) : Option Json :=
  (l.find? (fun p => p.1 = k)).map (fun p => p.2)

/-- Property assignment `obj[k] = v`: updates the key in place (keeping its
position) or appends it at the end, as JavaScript objects do. -/
def jSet (k : String) (v : Json) : List (String × Json) → List (String × Json)
  | [] => [(k, v)]
  | (k2, v2) :: rest => if k2 = k then (k, v) :: rest else (k2, v2) :: jSet k v rest

/-- Property removal `delete obj[k]`. -/
def jDel (k : String) (l : List (String × Json)) : List (String × Json) :=
  l.filter (fun p => p.1 ≠ k)

/-- JavaScript truthiness of a value. -/
def truthy : Json → Bool
  | .null => false
  | .bool b => b
  | .num n => n ≠ 0
  | .str s => s ≠ ""
  | .arr _ => true
  | .obj _ => true

/-- No key occurs twice, as in every JavaScript object. -/
def keysNodup (l : List (String × Json)) : Prop := (l.map Prod.fst).Nodup

instance (l : List (String × Json)) : Decidable (keysNodup l) := by
  unfold keysNodup; infer_instance

mutual
def jsz : Json → Nat
  | .null => 1
  | .bool _ => 1
  | .num _ => 1
  | .str _ => 1
  | .arr xs => 1 + lsz xs
  | .obj fs => 1 + fsz fs
def lsz : List Json → Nat
  | [] => 0
  | x :: rest => 1 + jsz x + lsz rest
def fsz : List (String × Json) → Nat
  | [] => 0
  | p :: rest => 1 + jsz p.2 + fsz rest
end

/-- `Object.entries` of a JavaScript array: index keys (as strings) paired
with the elements, in order. -/
def enumFieldsFrom (i : Nat) : List Json → List (String × Json)
  | [] => []
  | x :: rest => (toString i, x) :: enumFieldsFrom (i + 1) rest

def enumFields (xs : List Json) : List (String × Json) := enumFieldsFrom 0 xs

theorem fsz_enumFieldsFrom (xs : List Json) : ∀ i, fsz (enumFieldsFrom i xs) = lsz xs := by
  induction xs with
  | nil => intro i; rfl
  | cons x rest ih => intro i; simp [enumFieldsFrom, fsz, lsz, ih]

/-- The `allowedTopLevelProps` list of `cleanJsonSchema`. -/
def allowedTopLevelProps : List String :=
  ["type", "properties", "required", "items", "description", "enum", "const", "default",
   "minimum", "maximum", "minLength", "maxLength", "pattern", "format",
   "minItems", "maxItems", "uniqueItems", "additionalProperties",
   "anyOf", "oneOf", "allOf", "not", "$ref", "title"]

/-- The `validTypes` list of `cleanJsonSchema`. -/
def validTypes : List String := ["string", "number", "integer", "boolean", "object", "array", "null"]

/-- Drop every key outside the allow-list (the first `forEach` of
`cleanJsonSchema`). -/
def stepAllow (fs : List (String × Json)) : List (String × Json) :=
  fs.filter (fun p => allowedTopLevelProps.contains p.1)

/-- Normalize `type`.  A present string not among `validTypes` is coerced to
"string" (this includes the empty string, since `typeof '' === 'string'`
sends it into the first branch; the `else if (cleaned.type === '')` branch of
the source is unreachable); a present non-string is left alone; an absent
`type` defaults to "object". -/
def stepType (fs : List (String × Json)) : List (String × Json) :=
  match jGet "type" fs with
  | some (.str s) => if validTypes.contains s then fs else jSet "type" (.str "string") fs
  | some _ => fs
  | none => jSet "type" (.str "object") fs

/-- `if (cleaned.items && cleaned.type !== 'array') delete cleaned.items`. -/
def itemsGateStage (l : List (String × Json)) : List (String × Json) :=
  match jGet "items" l with
  | some v => if truthy v ∧ jGet "type" l ≠ some (Json.str "array") then jDel "items" l else l
  | none => l

/-- The filter applied to a `required` array: keep only non-empty strings. -/
def requiredFilter (es : List Json) : List Json :=
  es.filter (fun e => match e with | .str s => decide (0 < s.length) | _ => false)

/-- `required` handling: a truthy non-array is deleted; an array is filtered
to non-empty strings and deleted when that leaves nothing. -/
def stepRequired (l : List (String × Json)) : List (String × Json) :=
  match jGet "required" l with
  | some v =>
    if truthy v then
      match v with
      | .arr es =>
        if (requiredFilter es).isEmpty then jDel "required" l
        else jSet "required" (.arr (requiredFilter es)) l
      | _ => jDel "required" l
    else l
  | none => l

/-- Characters that may follow a backslash without triggering the escaping
repair (the negative look-ahead set of the source's replace). -/
def escOk (c : Char) : Bool :=
  c = '\\' || c = '/' || c = 'b' || c = 'f' || c = 'n' || c = 'r' || c = 't' ||
    c = '\"' || c = '\''

/-- The global replace of a backslash not followed by an `escOk` character
with a doubled backslash.  A backslash whose follower is in the set is left
in place and scanning resumes at the follower, which may itself start a
match, exactly as the regex engine's `lastIndex` advances. -/
def fixChars : List Char → List Char
  | [] => []
  | '\\' :: rest =>
    match rest with
    | c :: _ => if escOk c then '\\' :: fixChars rest else '\\' :: '\\' :: fixChars rest
    | [] => ['\\', '\\']
  | c :: rest => c :: fixChars rest

def fixBackslashes (s : String) : String := ⟨fixChars s.data⟩

/-- Validate `pattern`: keep it when the host accepts it, otherwise try the
backslash repair and keep the repaired string when accepted, otherwise drop
the key.  `rv` abstracts host regex acceptance. -/
def stepPattern (rv : String → Bool) (l : List (String × Json)) : List (String × Json) :=
  match jGet "pattern" l with
  | some (.str s) =>
    if s = "" then l
    else if rv s then l
    else
      let s2 := fixBackslashes s
      if rv s2 then jSet "pattern" (.str s2) l else jDel "pattern" l
  | _ => l

/-- Which entries the final cleanup `forEach` keeps (the null case is handled
separately because it can throw). -/
def keepVal (k : String) (v : Json) : Bool :=
  !(v == Json.str "") &&
    (k == "properties" || k == "default" ||
      (!(v == Json.obj []) && (!(v == Json.arr []) || k == "enum")))

/-- The final cleanup pass.  A `null` value under a key other than
`properties`/`default` is deleted and then hits `Object.keys(null)` in the
second `if`, which throws a `TypeError`; under `properties`/`default` the
second `if` is skipped so the entry is only deleted.  Empty strings are
deleted; empty objects and arrays are deleted except under
`properties`/`default` (`enum` also keeps empty arrays). -/
def finalPass : List (String × Json) → Except Unit (List (String × Json))
  | [] => .ok []
  | (k, v) :: rest =>
    if v = Json.null then
      if k = "properties" ∨ k = "default" then finalPass rest else .error ()
    else if keepVal k v then do
      let rest2 ← finalPass rest
      .ok ((k, v) :: rest2)
    else finalPass rest

theorem jGet_eq_some_mem {k : String} {v : Json} {l : List (String × Json)}
    (h : jGet k l = some v) : (k, v) ∈ l := by
  unfold jGet at h
  cases hf : l.find? (fun p => p.1 = k) with
  | none => rw [hf] at h; simp at h
  | some p =>
    rw [hf] at h
    simp at h
    have hm := List.mem_of_find?_eq_some hf
    have hp := List.find?_some hf
    simp at hp
    cases p with
    | mk k2 v2 =>
      simp at hp h
      subst hp; subst h; exact hm

theorem mem_jSet {k k2 : String} {v w : Json} {l : List (String × Json)}
    (h : (k, v) ∈ jSet k2 w l) : (k, v) ∈ l ∨ (k = k2 ∧ v = w) := by
  induction l with
  | nil =>
    simp [jSet] at h
    right; exact ⟨h.1, h.2⟩
  | cons p rest ih =>
    cases p with
    | mk k3 v3 =>
      simp only [jSet] at h
      by_cases hk : k3 = k2
      · rw [if_pos hk] at h
        rcases List.mem_cons.mp h with h1 | h1
        · right
          exact ⟨congrArg Prod.fst h1, congrArg Prod.snd h1⟩
        · left; exact List.mem_cons_of_mem _ h1
      · rw [if_neg hk] at h
        rcases List.mem_cons.mp h with h1 | h1
        · left; exact List.mem_cons.mpr (Or.inl h1)
        · rcases ih h1 with h2 | h2
          · left; exact List.mem_cons_of_mem _ h2
          · right; exact h2

theorem mem_jDel {k k2 : String} {v : Json} {l : List (String × Json)}
    (h : (k, v) ∈ jDel k2 l) : (k, v) ∈ l :=
  List.mem_of_mem_filter h

theorem mem_stepAllow {k : String} {v : Json} {l : List (String × Json)}
    (h : (k, v) ∈ stepAllow l) : (k, v) ∈ l :=
  List.mem_of_mem_filter h

theorem mem_stepType {k : String} {v : Json} {l : List (String × Json)}
    (h : (k, v) ∈ stepType l) : (k, v) ∈ l ∨ k = "type" := by
  unfold stepType at h
  split at h
  · split at h
    · left; exact h
    · rcases mem_jSet h with h1 | h1
      · left; exact h1
      · right; exact h1.1
  · left; exact h
  · rcases mem_jSet h with h1 | h1
    · left; exact h1
    · right; exact h1.1

theorem mem_itemsGateStage {k : String} {v : Json} {l : List (String × Json)}
    (h : (k, v) ∈ itemsGateStage l) : (k, v) ∈ l := by
  unfold itemsGateStage at h
  split at h
  · split at h
    · exact mem_jDel h
    · exact h
  · exact h

theorem mem_stepRequired {k : String} {v : Json} {l : List (String × Json)}
    (h : (k, v) ∈ stepRequired l) : (k, v) ∈ l ∨ k = "required" := by
  unfold stepRequired at h
  split at h
  · split at h
    · split at h
      · split at h
        · left; exact mem_jDel h
        · rcases mem_jSet h with h1 | h1
          · left; exact h1
          · right; exact h1.1
      · left; exact mem_jDel h
    · left; exact h
  · left; exact h

theorem jsz_lt_fsz_of_mem {k : String} {v : Json} {l : List (String × Json)}
    (h : (k, v) ∈ l) : jsz v < fsz l := by
  induction l with
  | nil => simp at h
  | cons p rest ih =>
    rcases List.mem_cons.mp h with h1 | h1
    · rw [← h1]; simp [fsz]; omega
    · have := ih h1; simp [fsz]; omega

theorem jsz_lt_lsz_of_mem {v : Json} {l : List Json} (h : v ∈ l) : jsz v < lsz l := by
  induction l with
  | nil => simp at h
  | cons x rest ih =>
    rcases List.mem_cons.mp h with h1 | h1
    · subst h1; simp [lsz]; omega
    · have := ih h1; simp [lsz]; omega

/-- Membership in the pure prefix of the pipeline (copy, delete `$schema`,
allow-list filter, type normalization, delete `nullable`) comes from the raw
fields or is the normalized `type`. -/
theorem mem_prefix {k : String} {v : Json} {fs0 : List (String × Json)}
    (h : (k, v) ∈ jDel "nullable" (stepType (stepAllow (jDel "$schema" fs0)))) :
    (k, v) ∈ fs0 ∨ k = "type" := by
  have h1 := mem_jDel h
  rcases mem_stepType h1 with h2 | h2
  · left; exact mem_jDel (mem_stepAllow h2)
  · right; exact h2

/-- Membership in an optional in-place assignment. -/
theorem mem_optSet {k key : String} {v : Json} {o : Option Json} {l : List (String × Json)}
    (hne : k ≠ key)
    (h : (k, v) ∈ (match o with | some w => jSet key w l | none => l)) : (k, v) ∈ l := by
  cases o with
  | none => exact h
  | some w =>
    rcases mem_jSet h with h1 | h1
    · exact h1
    · exact absurd h1.1 hne

mutual
/-- `cleanJsonSchema` of the source.  A falsy or non-object value is returned
unchanged (the early `if (!schema || typeof schema !== 'object') return
schema`).  An array is spread into an object of index keys, all of which the
allow-list then removes. -/
def cleanJsonSchema (rv : String → Bool) : Json → Except Unit Json
  | .null => .ok .null
  | .bool b => .ok (.bool b)
  | .num n => .ok (.num n)
  | .str s => .ok (.str s)
  | .arr xs => do
    let fs2 ← cleanFields rv (enumFields xs)
    .ok (.obj fs2)
  | .obj fs => do
    let fs2 ← cleanFields rv fs
    .ok (.obj fs2)
termination_by j => jsz j
decreasing_by
  · simp only [jsz, enumFields]; rw [fsz_enumFieldsFrom]; omega
  · simp only [jsz]; omega

/-- The body of `cleanJsonSchema` on an object's fields, one step per source
block, in source order: copy and delete `$schema`; drop keys outside the
allow-list; normalize `type`; delete `nullable`; recursively clean the values
of `properties`; drop `items` unless `type` is "array"; recursively clean
`items`; filter `required`; recursively clean `anyOf`, `oneOf`, `allOf` and
`not`; validate or repair `pattern`; final cleanup pass. -/
def cleanFields (rv : String → Bool) (fs0 : List (String × Json)) :
    Except Unit (List (String × Json)) := do
  let c4 := jDel "nullable" (stepType (stepAllow (jDel "$schema" fs0)))
  let props ← (match hp : jGet "properties" c4 with
    | some (.obj pfs) => (cleanProps rv pfs).map (fun ps => some (Json.obj ps))
    | some (.arr xs) => (cleanElems rv xs).map (fun es => some (Json.obj (enumFields es)))
    | _ => pure none)
  let c5 := match props with
    | some pv => jSet "properties" pv c4
    | none => c4
  let c6 := itemsGateStage c5
  let items2 ← (match hi : jGet "items" c6 with
    | some v =>
      if truthy v then
        match v with
        | .arr es => (cleanElems rv es).map (fun es2 => some (Json.arr es2))
        | w => (cleanJsonSchema rv w).map (fun v2 => some v2)
      else pure none
    | none => pure none)
  let c7 := match items2 with
    | some v2 => jSet "items" v2 c6
    | none => c6
  let c8 := stepRequired c7
  let any2 ← (match ha : jGet "anyOf" c8 with
    | some (.arr es) => (cleanElems rv es).map (fun es2 => some (Json.arr es2))
    | _ => pure none)
  let c9 := match any2 with
    | some v2 => jSet "anyOf" v2 c8
    | none => c8
  let one2 ← (match ho : jGet "oneOf" c9 with
    | some (.arr es) => (cleanElems rv es).map (fun es2 => some (Json.arr es2))
    | _ => pure none)
  let c10 := match one2 with
    | some v2 => jSet "oneOf" v2 c9
    | none => c9
  let all2 ← (match hl : jGet "allOf" c10 with
    | some (.arr es) => (cleanElems rv es).map (fun es2 => some (Json.arr es2))
    | _ => pure none)
  let c11 := match all2 with
    | some v2 => jSet "allOf" v2 c10
    | none => c10
  let not2 ← (match hn : jGet "not" c11 with
    | some v =>
      if truthy v then (cleanJsonSchema rv v).map (fun v2 => some v2)
      else pure none
    | none => pure none)
  let c12 := match not2 with
    | some v2 => jSet "not" v2 c11
    | none => c11
  finalPass (stepPattern rv c12)
termination_by fsz fs0
decreasing_by
  · -- properties, object form
    rcases mem_prefix (jGet_eq_some_mem hp) with h2 | h2
    · have h5 := jsz_lt_fsz_of_mem h2
      simp [jsz] at h5
      omega
    · simp at h2
  · -- properties, array form
    rcases mem_prefix (jGet_eq_some_mem hp) with h2 | h2
    · have h5 := jsz_lt_fsz_of_mem h2
      simp [jsz] at h5
      omega
    · simp at h2
  · -- items, array form
    have h1 := mem_itemsGateStage (jGet_eq_some_mem hi)
    have h2 := mem_optSet (by decide) h1
    rcases mem_prefix h2 with h3 | h3
    · have h5 := jsz_lt_fsz_of_mem h3
      simp [jsz] at h5
      omega
    · simp at h3
  · -- items, single form
    have h1 := mem_itemsGateStage (jGet_eq_some_mem hi)
    have h2 := mem_optSet (by decide) h1
    rcases mem_prefix h2 with h3 | h3
    · have h5 := jsz_lt_fsz_of_mem h3
      omega
    · simp at h3
  · -- anyOf
    rcases mem_stepRequired (jGet_eq_some_mem ha) with h1 | h1
    · have h2 := mem_optSet (by decide) h1
      have h3 := mem_itemsGateStage h2
      have h4 := mem_optSet (by decide) h3
      rcases mem_prefix h4 with h5 | h5
      · have h6 := jsz_lt_fsz_of_mem h5
        simp [jsz] at h6
        omega
      · simp at h5
    · simp at h1
  · -- oneOf
    have h0 := mem_optSet (by decide) (jGet_eq_some_mem ho)
    rcases mem_stepRequired h0 with h1 | h1
    · have h2 := mem_optSet (by decide) h1
      have h3 := mem_itemsGateStage h2
      have h4 := mem_optSet (by decide) h3
      rcases mem_prefix h4 with h5 | h5
      · have h6 := jsz_lt_fsz_of_mem h5
        simp [jsz] at h6
        omega
      · simp at h5
    · simp at h1
  · -- allOf
    have ha0 := mem_optSet (by decide) (jGet_eq_some_mem hl)
    have h0 := mem_optSet (by decide) ha0
    rcases mem_stepRequired h0 with h1 | h1
    · have h2 := mem_optSet (by decide) h1
      have h3 := mem_itemsGateStage h2
      have h4 := mem_optSet (by decide) h3
      rcases mem_prefix h4 with h5 | h5
      · have h6 := jsz_lt_fsz_of_mem h5
        simp [jsz] at h6
        omega
      · simp at h5
    · simp at h1
  · -- not
    have hb0 := mem_optSet (by decide) (jGet_eq_some_mem hn)
    have ha0 := mem_optSet (by decide) hb0
    have h0 := mem_optSet (by decide) ha0
    rcases mem_stepRequired h0 with h1 | h1
    · have h2 := mem_optSet (by decide) h1
      have h3 := mem_itemsGateStage h2
      have h4 := mem_optSet (by decide) h3
      rcases mem_prefix h4 with h5 | h5
      · have h6 := jsz_lt_fsz_of_mem h5
        omega
      · simp at h5
    · simp at h1

def cleanElems (rv : String → Bool) : List Json → Except Unit (List Json)
  | [] => .ok []
  | x :: rest => do
    let y ← cleanJsonSchema rv x
    let ys ← cleanElems rv rest
    .ok (y :: ys)
termination_by xs => lsz xs
decreasing_by
  · simp only [lsz]; omega
  · simp only [lsz]; omega

def cleanProps (rv : String → Bool) : List (String × Json) → Except Unit (List (String × Json))
  | [] => .ok []
  | p :: rest => do
    let z2 ← cleanJsonSchema rv p.2
    let rest2 ← cleanProps rv rest
    .ok ((p.1, z2) :: rest2)
termination_by ps => fsz ps
decreasing_by
  · simp only [fsz]; omega
  · simp only [fsz]; omega
end

/-- The `properties` block of `cleanJsonSchema` as a function of the current
fields. -/
def propsStage (rv : String → Bool) (l : List (String × Json)) :
    Except Unit (List (String × Json)) :=
  match jGet "properties" l with
  | some (.obj pfs) => (cleanProps rv pfs).map (fun ps => jSet "properties" (Json.obj ps) l)
  | some (.arr xs) => (cleanElems rv xs).map (fun es => jSet "properties" (Json.obj (enumFields es)) l)
  | _ => pure l

/-- The `items` cleaning block as a function of the current fields. -/
def itemsStage (rv : String → Bool) (l : List (String × Json)) :
    Except Unit (List (String × Json)) :=
  match jGet "items" l with
  | some v =>
    if truthy v then
      match v with
      | .arr es => (cleanElems rv es).map (fun es2 => jSet "items" (Json.arr es2) l)
      | w => (cleanJsonSchema rv w).map (fun v2 => jSet "items" v2 l)
    else pure l
  | none => pure l

/-- The `anyOf`/`oneOf`/`allOf` cleaning block for one key. -/
def combStage (rv : String → Bool) (key : String) (l : List (String × Json)) :
    Except Unit (List (String × Json)) :=
  match jGet key l with
  | some (.arr es) => (cleanElems rv es).map (fun es2 => jSet key (Json.arr es2) l)
  | _ => pure l

/-- The `not` cleaning block. -/
def notStage (rv : String → Bool) (l : List (String × Json)) :
    Except Unit (List (String × Json)) :=
  match jGet "not" l with
  | some v => if truthy v then (cleanJsonSchema rv v).map (fun v2 => jSet "not" v2 l) else pure l
  | none => pure l

/-- The pure prefix of the pipeline: copy, delete `$schema`, allow-list
filter, `type` normalization, delete `nullable`. -/
def prefixStages (fs0 : List (String × Json)) : List (String × Json) :=
  jDel "nullable" (stepType (stepAllow (jDel "$schema" fs0)))

/-- The tail of `cleanFields` from the `not` block on, verbatim. -/
def restAfterAll (rv : String → Bool) (c11 : List (String × Json)) :
    Except Unit (List (String × Json)) := do
  let not2 ← (match hn : jGet "not" c11 with
    | some v =>
      if truthy v then (cleanJsonSchema rv v).map (fun v2 => some v2)
      else pure none
    | none => pure none)
  let c12 := match not2 with
    | some v2 => jSet "not" v2 c11
    | none => c11
  finalPass (stepPattern rv c12)

/-- The tail of `cleanFields` from the `allOf` block on, verbatim. -/
def restAfterOne (rv : String → Bool) (c10 : List (String × Json)) :
    Except Unit (List (String × Json)) := do
  let all2 ← (match hl : jGet "allOf" c10 with
    | some (.arr es) => (cleanElems rv es).map (fun es2 => some (Json.arr es2))
    | _ => pure none)
  let c11 := match all2 with
    | some v2 => jSet "allOf" v2 c10
    | none => c10
  restAfterAll rv c11

/-- The tail of `cleanFields` from the `oneOf` block on, verbatim. -/
def restAfterAny (rv : String → Bool) (c9 : List (String × Json)) :
    Except Unit (List (String × Json)) := do
  let one2 ← (match ho : jGet "oneOf" c9 with
    | some (.arr es) => (cleanElems rv es).map (fun es2 => some (Json.arr es2))
    | _ => pure none)
  let c10 := match one2 with
    | some v2 => jSet "oneOf" v2 c9
    | none => c9
  restAfterOne rv c10

/-- The tail of `cleanFields` from the `anyOf` block on, verbatim. -/
def restAfterItems (rv : String → Bool) (c8 : List (String × Json)) :
    Except Unit (List (String × Json)) := do
  let any2 ← (match ha : jGet "anyOf" c8 with
    | some (.arr es) => (cleanElems rv es).map (fun es2 => some (Json.arr es2))
    | _ => pure none)
  let c9 := match any2 with
    | some v2 => jSet "anyOf" v2 c8
    | none => c8
  restAfterAny rv c9

/-- The tail of `cleanFields` from the `items` gate on, verbatim. -/
def restAfterProps (rv : String → Bool) (c5 : List (String × Json)) :
    Except Unit (List (String × Json)) := do
  let c6 := itemsGateStage c5
  let items2 ← (match hi : jGet "items" c6 with
    | some v =>
      if truthy v then
        match v with
        | .arr es => (cleanElems rv es).map (fun es2 => some (Json.arr es2))
        | w => (cleanJsonSchema rv w).map (fun v2 => some v2)
      else pure none
    | none => pure none)
  let c7 := match items2 with
    | some v2 => jSet "items" v2 c6
    | none => c6
  restAfterItems rv (stepRequired c7)

/-- Peeling the `properties` stage off `cleanFields`. -/
theorem cleanFields_peel (rv : String → Bool) (fs0 : List (String × Json)) :
    cleanFields rv fs0 = propsStage rv (prefixStages fs0) >>= restAfterProps rv := by
  conv_lhs => rw [cleanFields]
  unfold propsStage restAfterProps restAfterItems restAfterAny restAfterOne restAfterAll
    prefixStages
  rcases hp : jGet "properties"
      (jDel "nullable" (stepType (stepAllow (jDel "$schema" fs0)))) with _ | pv
  · simp only [hp]; rfl
  · cases pv with
    | obj pfs =>
      simp only [hp]
      rcases hps : cleanProps rv pfs with e | ps
      · simp [hps, Except.map, Bind.bind, Except.bind]
      · simp [hps, Except.map, Bind.bind, Except.bind]
    | arr xs =>
      simp only [hp]
      rcases hes : cleanElems rv xs with e | es
      · simp [hes, Except.map, Bind.bind, Except.bind]
      · simp [hes, Except.map, Bind.bind, Except.bind]
    | null => simp only [hp]; rfl
    | bool b => simp only [hp]; rfl
    | num n => simp only [hp]; rfl
    | str s2 => simp only [hp]; rfl

/-- Peeling the `items` stages off the remainder. -/
theorem restAfterProps_peel (rv : String → Bool) (c5 : List (String × Json)) :
    restAfterProps rv c5 =
      itemsStage rv (itemsGateStage c5) >>= fun c7 => restAfterItems rv (stepRequired c7) := by
  unfold restAfterProps
  dsimp only
  split
  next v heq =>
    cases v with
    | arr es =>
      rcases hes : cleanElems rv es with e | es2 <;>
        simp [itemsStage, heq, truthy, hes, Except.map, Bind.bind, Except.bind, Pure.pure, Except.pure]
    | null => simp [itemsStage, heq, truthy, Bind.bind, Except.bind, Pure.pure, Except.pure]
    | obj gs =>
      rcases hv : cleanJsonSchema rv (.obj gs) with e | v2 <;>
        simp [itemsStage, heq, truthy, hv, Except.map, Bind.bind, Except.bind, Pure.pure, Except.pure]
    | str s2 =>
      by_cases hs : s2 = ""
      · subst hs; simp [itemsStage, heq, truthy, Bind.bind, Except.bind, Pure.pure, Except.pure]
      · rcases hv : cleanJsonSchema rv (.str s2) with e | v2 <;>
          simp [itemsStage, heq, truthy, hs, hv, Except.map, Bind.bind, Except.bind, Pure.pure, Except.pure]
    | num n =>
      by_cases hn0 : n = 0
      · subst hn0; simp [itemsStage, heq, truthy, Bind.bind, Except.bind, Pure.pure, Except.pure]
      · rcases hv : cleanJsonSchema rv (.num n) with e | v2 <;>
          simp [itemsStage, heq, truthy, hn0, hv, Except.map, Bind.bind, Except.bind, Pure.pure, Except.pure]
    | bool b =>
      cases b with
      | false => simp [itemsStage, heq, truthy, Bind.bind, Except.bind, Pure.pure, Except.pure]
      | true =>
        rcases hv : cleanJsonSchema rv (.bool true) with e | v2 <;>
          simp [itemsStage, heq, truthy, hv, Except.map, Bind.bind, Except.bind, Pure.pure, Except.pure]
  next heq => simp [itemsStage, heq, Bind.bind, Except.bind, Pure.pure, Except.pure]

/-- Peeling the `anyOf` stage. -/
theorem restAfterItems_peel (rv : String → Bool) (c8 : List (String × Json)) :
    restAfterItems rv c8 = combStage rv "anyOf" c8 >>= restAfterAny rv := by
  unfold restAfterItems combStage
  rcases ha : jGet "anyOf" c8 with _ | av
  · simp only [ha]; rfl
  · cases av with
    | arr es =>
      simp only [ha]
      rcases hes : cleanElems rv es with e | es2
      · simp [hes, Except.map, Bind.bind, Except.bind]
      · simp [hes, Except.map, Bind.bind, Except.bind]
    | null => simp only [ha]; rfl
    | bool b => simp only [ha]; rfl
    | num n => simp only [ha]; rfl
    | str s2 => simp only [ha]; rfl
    | obj gs => simp only [ha]; rfl

/-- Peeling the `oneOf` stage. -/
theorem restAfterAny_peel (rv : String → Bool) (c9 : List (String × Json)) :
    restAfterAny rv c9 = combStage rv "oneOf" c9 >>= restAfterOne rv := by
  unfold restAfterAny combStage
  rcases ho : jGet "oneOf" c9 with _ | ov
  · simp only [ho]; rfl
  · cases ov with
    | arr es =>
      simp only [ho]
      rcases hes : cleanElems rv es with e | es2
      · simp [hes, Except.map, Bind.bind, Except.bind]
      · simp [hes, Except.map, Bind.bind, Except.bind]
    | null => simp only [ho]; rfl
    | bool b => simp only [ho]; rfl
    | num n => simp only [ho]; rfl
    | str s2 => simp only [ho]; rfl
    | obj gs => simp only [ho]; rfl

/-- Peeling the `allOf` stage. -/
theorem restAfterOne_peel (rv : String → Bool) (c10 : List (String × Json)) :
    restAfterOne rv c10 = combStage rv "allOf" c10 >>= restAfterAll rv := by
  unfold restAfterOne combStage
  rcases hl : jGet "allOf" c10 with _ | lv
  · simp only [hl]; rfl
  · cases lv with
    | arr es =>
      simp only [hl]
      rcases hes : cleanElems rv es with e | es2
      · simp [hes, Except.map, Bind.bind, Except.bind]
      · simp [hes, Except.map, Bind.bind, Except.bind]
    | null => simp only [hl]; rfl
    | bool b => simp only [hl]; rfl
    | num n => simp only [hl]; rfl
    | str s2 => simp only [hl]; rfl
    | obj gs => simp only [hl]; rfl

/-- Peeling the `not` stage. -/
theorem restAfterAll_peel (rv : String → Bool) (c11 : List (String × Json)) :
    restAfterAll rv c11 =
      notStage rv c11 >>= fun c12 => finalPass (stepPattern rv c12) := by
  unfold restAfterAll notStage
  rcases hn : jGet "not" c11 with _ | v
  · simp only [hn]; rfl
  · simp only [hn]
    by_cases ht : truthy v
    · rw [if_pos ht, if_pos ht]
      rcases hv : cleanJsonSchema rv v with e | v2
      · simp [hv, Except.map, Bind.bind, Except.bind]
      · simp [hv, Except.map, Bind.bind, Except.bind]
    · rw [if_neg ht, if_neg ht]
      rfl

/-- `Except` bind succeeds exactly when both halves do. -/
theorem except_bind_ok {α β : Type} {x : Except Unit α} {f : α → Except Unit β} {b : β} :
    (x >>= f) = .ok b ↔ ∃ a, x = .ok a ∧ f a = .ok b := by
  cases x with
  | error e => simp [Bind.bind, Except.bind]
  | ok a => simp [Bind.bind, Except.bind]

/-- `cleanFields` succeeds exactly when every stage does, in order. -/
theorem cleanFields_ok_iff {rv : String → Bool} {fs0 fsF : List (String × Json)} :
    cleanFields rv fs0 = .ok fsF ↔
      ∃ c5 c7 c9 c10 c11 c12,
        propsStage rv (prefixStages fs0) = .ok c5 ∧
        itemsStage rv (itemsGateStage c5) = .ok c7 ∧
        combStage rv "anyOf" (stepRequired c7) = .ok c9 ∧
        combStage rv "oneOf" c9 = .ok c10 ∧
        combStage rv "allOf" c10 = .ok c11 ∧
        notStage rv c11 = .ok c12 ∧
        finalPass (stepPattern rv c12) = .ok fsF := by
  rw [cleanFields_peel]
  constructor
  · intro h
    rcases except_bind_ok.mp h with ⟨c5, h5, h⟩
    rw [restAfterProps_peel] at h
    rcases except_bind_ok.mp h with ⟨c7, h7, h⟩
    rw [restAfterItems_peel] at h
    rcases except_bind_ok.mp h with ⟨c9, h9, h⟩
    rw [restAfterAny_peel] at h
    rcases except_bind_ok.mp h with ⟨c10, h10, h⟩
    rw [restAfterOne_peel] at h
    rcases except_bind_ok.mp h with ⟨c11, h11, h⟩
    rw [restAfterAll_peel] at h
    rcases except_bind_ok.mp h with ⟨c12, h12, h⟩
    exact ⟨c5, c7, c9, c10, c11, c12, h5, h7, h9, h10, h11, h12, h⟩
  · rintro ⟨c5, c7, c9, c10, c11, c12, h5, h7, h9, h10, h11, h12, h⟩
    apply except_bind_ok.mpr
    refine ⟨c5, h5, ?_⟩
    rw [restAfterProps_peel]
    apply except_bind_ok.mpr
    refine ⟨c7, h7, ?_⟩
    rw [restAfterItems_peel]
    apply except_bind_ok.mpr
    refine ⟨c9, h9, ?_⟩
    rw [restAfterAny_peel]
    apply except_bind_ok.mpr
    refine ⟨c10, h10, ?_⟩
    rw [restAfterOne_peel]
    apply except_bind_ok.mpr
    refine ⟨c11, h11, ?_⟩
    rw [restAfterAll_peel]
    apply except_bind_ok.mpr
    exact ⟨c12, h12, h⟩

deriving instance DecidableEq for Except

/-- Computation form of `cleanJsonSchema` on an object. -/
theorem cleanJsonSchema_obj (rv : String → Bool) (fs : List (String × Json)) :
    cleanJsonSchema rv (Json.obj fs) = cleanFields rv fs >>= fun fs2 => .ok (.obj fs2) := by
  simp only [cleanJsonSchema]

/-- Computation form of `cleanJsonSchema` on an array. -/
theorem cleanJsonSchema_arr (rv : String → Bool) (xs : List Json) :
    cleanJsonSchema rv (Json.arr xs) =
      cleanFields rv (enumFields xs) >>= fun fs2 => .ok (.obj fs2) := by
  simp only [cleanJsonSchema]

/-- A concrete regex-validity oracle for closed computations; the inputs it
is used on carry no `pattern` key, so its value is never consulted. -/
def rvTrue : String → Bool := fun _ => true

/-! ## Tool conversion and trimming (`convertToolsToAnthropic`, tool cap) -/

/-- One entry of the `tools` array handed to the adapter: `name`,
`description` and `input_schema`, all read off the untyped payload. -/
structure ToolSpec where
  name : String
  description : Json
  input_schema : Json
  deriving DecidableEq, Repr

/-- `typeof x === 'object' && Object.keys(x).length === 0` (evaluated only
for truthy `x` thanks to `||` short-circuiting). -/
def isEmptyObjLike : Json → Bool
  | .obj [] => true
  | .arr [] => true
  | _ => false

def truthyOpt : Option Json → Bool
  | some v => truthy v
  | none => false

def charsPrefix : List Char → List Char → Bool
  | [], _ => true
  | _ :: _, [] => false
  | n :: ns, c :: cs => n = c && charsPrefix ns cs

def charsIncludes (needle : List Char) : List Char → Bool
  | [] => needle.isEmpty
  | c :: cs => charsPrefix needle (c :: cs) || charsIncludes needle cs

/-- `hay.includes(needle)`. -/
def strIncludes (hay needle : String) : Bool := charsIncludes needle.data hay.data

/-- The per-tool conversion of `convertToolsToAnthropic`: a falsy or empty
`input_schema` is replaced by `{type: 'object', properties: {}}`; the schema
is cleaned; a lingering draft-07 `$schema` is removed (dead in practice
since the cleaner already strips `$schema`); `if (!cleanedSchema.type)
cleanedSchema.type = 'object'` patches a falsy or absent type.  When the
cleaned schema is a primitive that assignment throws in strict mode
(`Except.error`); a bare array cannot come back from the cleaner. -/
def convertTool (rv : String → Bool) (t : ToolSpec) : Except Unit ToolSpec := do
  let inputSchema :=
    if !truthy t.input_schema || isEmptyObjLike t.input_schema then
      Json.obj [("type", Json.str "object"), ("properties", Json.obj [])]
    else t.input_schema
  let cleaned ← cleanJsonSchema rv inputSchema
  let cleaned2 := match cleaned with
    | .obj cfs =>
      match jGet "$schema" cfs with
      | some (.str s) =>
        if s ≠ "" ∧ strIncludes s "draft-07" then Json.obj (jDel "$schema" cfs) else cleaned
      | _ => cleaned
    | _ => cleaned
  match cleaned2 with
  | .obj cfs =>
    let cfs2 := if truthyOpt (jGet "type" cfs) then cfs else jSet "type" (Json.str "object") cfs
    pure { name := t.name,
           description := if truthy t.description then t.description else .str t.name,
           input_schema := Json.obj cfs2 }
  | .arr es =>
    pure { name := t.name,
           description := if truthy t.description then t.description else .str t.name,
           input_schema := Json.arr es }
  | _ => .error ()

/-- The `Map`-based deduplication: the first occurrence of each name wins,
later duplicates are logged and dropped, insertion order is kept. -/
def dedupTools : List ToolSpec → List String → List ToolSpec
  | [], _ => []
  | t :: rest, seen =>
    if seen.contains t.name then dedupTools rest seen
    else t :: dedupTools rest (t.name :: seen)

/-- `convertToolsToAnthropic`: convert every tool, then deduplicate by
name. -/
def convertToolsToAnthropic (rv : String → Bool) (tools : List ToolSpec) :
    Except Unit (List ToolSpec) := do
  let convertedTools ← tools.mapM (convertTool rv)
  pure (dedupTools convertedTools [])

/-- The `MAX_TOOLS` cap of `createAnthropicStream`. -/
def MAX_TOOLS : Nat := 100

/-- The tool-trimming of `createAnthropicStream`: when `baseTools ++ tools`
exceeds the cap, keep all base tools and fill the remaining slots with the
leading ad hoc tools; when the base tools alone overflow, truncate them. -/
def selectTools (baseTools tools : List ToolSpec) : List ToolSpec :=
  let allTools := baseTools ++ tools
  if MAX_TOOLS < allTools.length then
    let remainingSlots : Int := (MAX_TOOLS : Int) - baseTools.length
    if 0 < remainingSlots then baseTools ++ tools.take remainingSlots.toNat
    else baseTools.take MAX_TOOLS
  else allTools

/-! ## Dispatcher and conversation loop (`executeToolCall`,
`createAnthropicStream`) -/

/-- One block of a completed provider turn. -/
inductive ContentBlock where
  | text (s : String)
  | thinking (s : String)
  | toolUse (id name : String) (input : List (String × Json))
  deriving DecidableEq, Repr

/-- Content of one `tool_result` block sent back to the provider.  The
source serializes a success payload with `JSON.stringify(result, null, 2)`
and a failure as an `Error: ...` string; the serialization itself is
irrelevant here, so the structured value is kept. -/
inductive ToolResultContent where
  | json (r : Option Json)
  | errText (e : Option String)
  deriving DecidableEq, Repr

inductive MsgContent where
  | text (s : String)
  | blocks (bs : List ContentBlock)
  | results (rs : List (String × ToolResultContent))
  deriving DecidableEq, Repr

/-- One entry of `conversationMessages`. -/
structure ChatMessage where
  role : String
  content : MsgContent
  deriving DecidableEq, Repr

/-- The request fields the dispatcher and the loop consult.  `oauthKeys` is
`Object.keys(request.credentials.oauth)` in insertion order, `none` when no
credential set was supplied. -/
structure AgentRequest where
  message : String
  workflowId : String
  userId : String
  oauthKeys : Option (List String)
  conversationHistory : List ChatMessage
  deriving DecidableEq, Repr

/-- The tools `executeToolCall` implements locally instead of resolving from
the general registry. -/
def privilegedToolNames : List String :=
  ["function_execute", "edit_workflow", "get_workflow_console",
   "get_blocks_metadata", "get_blocks_and_tools"]

/-- The `_context` object injected into a general-registry tool's input. -/
def contextValue (req : AgentRequest) : Json :=
  .obj [("workflowId", .str req.workflowId), ("userId", .str req.userId)]

/-- What `executeToolCall` leaves in the `toolInput` object: the privileged
branches return before the mutation block, while the general-registry path
first writes `credential` (the first OAuth key, whenever at least one
exists) and then `_context`.  JavaScript passes the object by reference, so
these writes are visible through every alias of the input, in particular
through the assistant turn already pushed onto the conversation. -/
def inputAfterExecution (toolName : String) (input : List (String × Json))
    (req : AgentRequest) : List (String × Json) :=
  if privilegedToolNames.contains toolName then input
  else
    let i1 := match req.oauthKeys with
      | some (k :: _) => jSet "credential" (.str k) input
      | _ => input
    jSet "_context" (contextValue req) i1

/-- `{ workflowId: request.workflowId, ...toolInput }`: the spread writes
the input's entries over the seeded object, so an input-supplied
`workflowId` overrides the request-scoped one. -/
def spreadInto (base fields : List (String × Json)) : List (String × Json) :=
  fields.foldl (fun acc p => jSet p.1 p.2 acc) base

/-- The input value each tool's executor receives from `executeToolCall`:
`function_execute` and `get_blocks_metadata` get the input as is,
`edit_workflow` and `get_workflow_console` get it spread over a seeded
`workflowId`, `get_blocks_and_tools` gets an empty object, and the general
registry gets the input after the credential and `_context` writes. -/
def dispatchedInput (toolName : String) (input : List (String × Json))
    (req : AgentRequest) : List (String × Json) :=
  if toolName = "function_execute" then input
  else if toolName = "edit_workflow" then
    spreadInto [("workflowId", .str req.workflowId)] input
  else if toolName = "get_workflow_console" then
    spreadInto [("workflowId", .str req.workflowId)] input
  else if toolName = "get_blocks_metadata" then input
  else if toolName = "get_blocks_and_tools" then []
  else inputAfterExecution toolName input req

/-- What `executeToolCall` returns: a success flag with a result or an
error message. -/
structure ToolCallOutcome where
  success : Bool
  result : Option Json
  error : Option String
  deriving DecidableEq, Repr

/-- Events relayed live while one provider turn streams. -/
inductive StreamDelta where
  | reasoningStart
  | reasoningDelta (s : String)
  | reasoningEnd (durationMs : Nat)
  | contentDelta (s : String)
  deriving DecidableEq, Repr

/-- One completed provider turn: the deltas relayed while it streamed, the
final content blocks, and the stop reason and usage of the final message. -/
structure FinalMessage where
  deltas : List StreamDelta
  content : List ContentBlock
  stopReason : String
  inputTokens : Nat
  outputTokens : Nat
  deriving DecidableEq, Repr

/-- The outbound server-sent events of `createAnthropicStream`. -/
inductive StreamEvent where
  | start
  | delta (d : StreamDelta)
  | toolCall (id name : String) (input : List (String × Json))
  | toolResult (id name : String) (success : Bool) (result : Option Json) (error : Option String)
  | errorEvt (message displayMessage : String)
  | done (payload : Option (String × Nat × Nat))
  deriving DecidableEq, Repr

/-- The environment of one run: the provider's completed turn for each loop
iteration, and the outcome of every external tool executor
(`executeTool`, the imported server tools and the `function_execute`
eval), which `executeToolCall` wraps in try/catch so an outcome always
comes back. -/
structure LoopEnv where
  provider : Nat → FinalMessage
  toolExec : String → List (String × Json) → ToolCallOutcome

/-- The mutable locals of `createAnthropicStream`'s start callback, plus a
log (`appended`) of every turn as it was at the moment it was pushed. -/
structure LoopState where
  conversation : List ChatMessage
  appended : List ChatMessage
  events : List StreamEvent
  iterationCount : Nat
  continueLoop : Bool
  deriving DecidableEq, Repr

/-- The `maxIterations` constant. -/
def maxIterations : Nat := 10

/-- The `tool_use` blocks of a completed turn, in provider order. -/
def toolUseBlocks : List ContentBlock → List (String × String × List (String × Json))
  | [] => []
  | b :: rest => match b with
    | .toolUse id name input => (id, name, input) :: toolUseBlocks rest
    | _ => toolUseBlocks rest

/-- Whether a completed turn requests at least one tool invocation. -/
def hasToolUse (m : FinalMessage) : Bool := !(toolUseBlocks m.content).isEmpty

/-- The `tool_call`/`tool_result` event pairs of one batch, in order. -/
def toolEvents (env : LoopEnv) (req : AgentRequest) :
    List (String × String × List (String × Json)) → List StreamEvent
  | [] => []
  | (id, name, input) :: rest =>
    let o := env.toolExec name (dispatchedInput name input req)
    .toolCall id name input ::
      .toolResult id name o.success o.result o.error :: toolEvents env req rest

/-- The `tool_result` blocks accumulated for the synthetic user turn. -/
def toolResultBlocks (env : LoopEnv) (req : AgentRequest) :
    List (String × String × List (String × Json)) → List (String × ToolResultContent)
  | [] => []
  | (id, name, input) :: rest =>
    let o := env.toolExec name (dispatchedInput name input req)
    (id, if o.success then .json o.result else .errText o.error) ::
      toolResultBlocks env req rest

/-- The in-place effect of executing a batch on the aliased tool-use
inputs. -/
def mutateBlock (req : AgentRequest) : ContentBlock → ContentBlock
  | .toolUse id name input => .toolUse id name (inputAfterExecution name input req)
  | b => b

/-- The same effect at the turn level. -/
def mutateTurn (req : AgentRequest) : ChatMessage → ChatMessage
  | ⟨role, .blocks bs⟩ => ⟨role, .blocks (bs.map (mutateBlock req))⟩
  | m => m

/-- One trip of the tool-execution `while` loop: bump the counter, stream
the turn's deltas, and either execute the batch (appending the assistant
turn — whose tool-use inputs the dispatcher then mutates through the shared
reference — and the synthetic results turn) or emit the final `done` event
and stop. -/
def loopIter (env : LoopEnv) (req : AgentRequest) (st : LoopState) : LoopState :=
  let msg := env.provider st.iterationCount
  let evs := st.events ++ msg.deltas.map StreamEvent.delta
  let tus := toolUseBlocks msg.content
  if tus.isEmpty then
    { st with
      iterationCount := st.iterationCount + 1
      events := evs ++ [.done (some (msg.stopReason, msg.inputTokens, msg.outputTokens))]
      continueLoop := false }
  else
    { st with
      iterationCount := st.iterationCount + 1
      conversation := st.conversation ++
        [⟨"assistant", .blocks (msg.content.map (mutateBlock req))⟩,
         ⟨"user", .results (toolResultBlocks env req tus)⟩]
      appended := st.appended ++
        [⟨"assistant", .blocks msg.content⟩,
         ⟨"user", .results (toolResultBlocks env req tus)⟩]
      events := evs ++ toolEvents env req tus }

/-- `while (continueLoop && iterationCount < maxIterations)`.  The fuel is
only a recursion bound: every trip increments `iterationCount` and the guard
requires it below the cap, so `maxIterations` fuel is never exhausted before
the guard goes false — the guard, not the fuel, ends the loop. -/
def runLoop (env : LoopEnv) (req : AgentRequest) : Nat → LoopState → LoopState
  | 0, st => st
  | fuel + 1, st =>
    if st.continueLoop ∧ st.iterationCount < maxIterations then
      runLoop env req fuel (loopIter env req st)
    else st

/-- The cap error event emitted after the loop. -/
def capErrorEvent : StreamEvent :=
  .errorEvt "Max tool execution iterations reached"
    "The conversation has reached the maximum number of tool executions."

/-- The state entering the loop: the caller's history with the user message
pushed, the `start` event emitted, a zeroed counter and a set continue
flag. -/
def initialState (req : AgentRequest) : LoopState :=
  { conversation := req.conversationHistory ++ [⟨"user", .text req.message⟩]
    appended := [⟨"user", .text req.message⟩]
    events := [.start]
    iterationCount := 0
    continueLoop := true }

/-- The post-loop cap check: `if (iterationCount >= maxIterations)` emit the
cap error event and a bare done event. -/
def finishRun (st : LoopState) : LoopState :=
  { st with events := st.events ++
      (if maxIterations ≤ st.iterationCount then [capErrorEvent, .done none] else []) }

/-- One full run of `createAnthropicStream`'s start callback: emit `start`,
push the user message, run the loop, and append the cap error plus a bare
`done` whenever the counter reached the cap. -/
def runAgentLoop (env : LoopEnv) (req : AgentRequest) : LoopState :=
  finishRun (runLoop env req maxIterations (initialState req))

/-! ## Basic lookup lemmas -/

theorem jGet_nil (k : String) : jGet k ([] : List (String × Json)) = none := rfl

theorem jGet_cons (k k2 : String) (v : Json) (l : List (String × Json)) :
    jGet k ((k2, v) :: l) = if k2 = k then some v else jGet k l := by
  by_cases h : k2 = k <;> simp [jGet, List.find?, h]

theorem jGet_jSet_self (k : String) (v : Json) (l : List (String × Json)) :
    jGet k (jSet k v l) = some v := by
  induction l with
  | nil => simp [jSet, jGet_cons]
  | cons p rest ih =>
    cases p with
    | mk k2 v2 =>
      by_cases h : k2 = k
      · simp [jSet, h, jGet_cons]
      · simp [jSet, h, jGet_cons, ih]

theorem jGet_jSet_ne (k k2 : String) (v : Json) (l : List (String × Json)) (h : k ≠ k2) :
    jGet k (jSet k2 v l) = jGet k l := by
  have h2 : ¬ k2 = k := fun hh => h hh.symm
  induction l with
  | nil => simp [jSet, jGet_cons, jGet_nil, h2]
  | cons p rest ih =>
    cases p with
    | mk k3 v3 =>
      by_cases h3 : k3 = k2
      · subst h3
        simp [jSet, jGet_cons, h2]
      · simp [jSet, h3, jGet_cons, ih]

theorem jGet_eq_none_of_not_mem (k : String) (l : List (String × Json))
    (h : k ∉ l.map Prod.fst) : jGet k l = none := by
  induction l with
  | nil => rfl
  | cons p rest ih =>
    cases p with
    | mk k2 v2 =>
      have h1 : ¬ k2 = k := by
        intro hh
        exact h (by simp [hh])
      have h2 : k ∉ rest.map Prod.fst := by
        intro hh
        exact h (by simp [hh])
      rw [jGet_cons, if_neg h1, ih h2]

theorem jGet_spreadInto (k : String) (fields : List (String × Json)) :
    ∀ base, keysNodup fields →
      jGet k (spreadInto base fields) =
        match jGet k fields with
        | some v => some v
        | none => jGet k base := by
  induction fields with
  | nil => intro base hnd; simp [spreadInto, jGet_nil]
  | cons p rest ih =>
    intro base hnd
    cases p with
    | mk k1 v1 =>
      have hnd' := hnd
      unfold keysNodup at hnd'
      rw [List.map_cons, List.nodup_cons] at hnd'
      have hk1 : k1 ∉ rest.map Prod.fst := hnd'.1
      have hnd2 : keysNodup rest := hnd'.2
      show jGet k (spreadInto (jSet k1 v1 base) rest) = _
      rw [ih (jSet k1 v1 base) hnd2]
      by_cases h : k1 = k
      · subst h
        rw [jGet_eq_none_of_not_mem k1 rest hk1, jGet_cons, if_pos rfl, jGet_jSet_self]
      · rw [jGet_cons, if_neg h]
        cases hr : jGet k rest with
        | some v => rfl
        | none => simp [jGet_jSet_ne k k1 v1 base (fun hh => h hh.symm)]

/-! ## Claim theorems: dispatcher -/

/-- A concrete request with no credential set. -/
def reqPlain : AgentRequest :=
  { message := "hello"
    workflowId := "wf-1"
    userId := "user-1"
    oauthKeys := none
    conversationHistory := [] }

/-- A concrete request whose credential set holds two OAuth associations. -/
def reqTwoCreds : AgentRequest :=
  { message := "hello"
    workflowId := "wf-1"
    userId := "user-1"
    oauthKeys := some ["google-oauth", "github-oauth"]
    conversationHistory := [] }

/-- C2, counterexample: with two OAuth associations in the credential set the
claim says the tool input's `credential` field is left untouched, but the
dispatcher writes the first association into it. -/
theorem credential_merge_counterexample :
    ¬ (jGet "credential" (inputAfterExecution "http_request" [] reqTwoCreds) =
        jGet "credential" ([] : List (String × Json))) := by
  decide

/-- C2 (amended): for a tool resolved from the general registry, whenever
the caller's credential set holds at least one OAuth association the
dispatcher writes the first one into the tool input's `credential` field
(overwriting any existing value); only when the set is absent or empty is
the field left untouched. -/
theorem credential_first_key_merge (name : String) (input : List (String × Json))
    (req : AgentRequest) (h : privilegedToolNames.contains name = false) :
    jGet "credential" (inputAfterExecution name input req) =
      match req.oauthKeys with
      | some (k :: _) => some (.str k)
      | _ => jGet "credential" input := by
  unfold inputAfterExecution
  rw [h]
  simp only [Bool.false_eq_true, if_false]
  rcases req.oauthKeys with _ | ks
  · exact jGet_jSet_ne _ _ _ _ (by decide)
  · cases ks with
    | nil => exact jGet_jSet_ne _ _ _ _ (by decide)
    | cons k rest =>
      rw [jGet_jSet_ne _ _ _ _ (by decide), jGet_jSet_self]

theorem credential_first_key_merge_witness :
    privilegedToolNames.contains "http_request" = false ∧
    jGet "credential" (inputAfterExecution "http_request" [] reqTwoCreds) =
      match reqTwoCreds.oauthKeys with
      | some (k :: _) => some (.str k)
      | _ => jGet "credential" ([] : List (String × Json)) :=
  ⟨by decide, credential_first_key_merge "http_request" [] reqTwoCreds (by decide)⟩

/-- C3, counterexample: the claim says a `_context` object carrying the user
and workflow identifiers is injected into every tool's input, but the
privileged `get_blocks_and_tools` executor is invoked with an empty input
and no `_context` at all. -/
theorem context_injection_counterexample :
    jGet "_context" (dispatchedInput "get_blocks_and_tools" [("blockIds", Json.arr [])] reqPlain)
        = none ∧
    (none : Option Json) ≠ some (contextValue reqPlain) := by
  constructor
  · decide
  · decide

/-- C3 (amended): the dispatcher injects the `_context` object carrying the
requesting user and workflow identifiers only into the input of tools
resolved from the general registry.  The five privileged tools never receive
it: their executors see the input unchanged (`function_execute`,
`get_blocks_metadata`), the input spread over a seeded `workflowId`
(`edit_workflow`, `get_workflow_console`), or an empty object
(`get_blocks_and_tools`). -/
theorem context_injection_scope (name : String) (input : List (String × Json))
    (req : AgentRequest) (hnd : keysNodup input) :
    jGet "_context" (dispatchedInput name input req) =
      if privilegedToolNames.contains name then
        (if name = "get_blocks_and_tools" then none else jGet "_context" input)
      else some (contextValue req) := by
  by_cases h1 : name = "function_execute"
  · subst h1; simp [dispatchedInput, privilegedToolNames]
  by_cases h2 : name = "edit_workflow"
  · subst h2
    have hl : dispatchedInput "edit_workflow" input req =
        spreadInto [("workflowId", .str req.workflowId)] input := by
      unfold dispatchedInput
      rw [if_neg (by decide), if_pos rfl]
    rw [hl, jGet_spreadInto _ _ _ hnd, if_pos (by decide), if_neg (by decide)]
    cases h : jGet "_context" input with
    | some v => rfl
    | none => simp [jGet_cons, jGet_nil]
  by_cases h3 : name = "get_workflow_console"
  · subst h3
    have hl : dispatchedInput "get_workflow_console" input req =
        spreadInto [("workflowId", .str req.workflowId)] input := by
      unfold dispatchedInput
      rw [if_neg (by decide), if_neg (by decide), if_pos rfl]
    rw [hl, jGet_spreadInto _ _ _ hnd, if_pos (by decide), if_neg (by decide)]
    cases h : jGet "_context" input with
    | some v => rfl
    | none => simp [jGet_cons, jGet_nil]
  by_cases h4 : name = "get_blocks_metadata"
  · subst h4; simp [dispatchedInput, privilegedToolNames]
  by_cases h5 : name = "get_blocks_and_tools"
  · subst h5; simp [dispatchedInput, privilegedToolNames, jGet_nil]
  · have hp : privilegedToolNames.contains name = false := by
      simp [privilegedToolNames, h1, h2, h3, h4, h5]
    have hl : dispatchedInput name input req = inputAfterExecution name input req := by
      unfold dispatchedInput
      rw [if_neg h1, if_neg h2, if_neg h3, if_neg h4, if_neg h5]
    have hr : inputAfterExecution name input req =
        jSet "_context" (contextValue req)
          (match req.oauthKeys with
            | some (k :: _) => jSet "credential" (.str k) input
            | _ => input) := by
      unfold inputAfterExecution
      rw [hp]
      rfl
    rw [hl, hr, jGet_jSet_self, hp]
    rfl

theorem context_injection_scope_witness :
    keysNodup [("url", Json.str "https://example.com")] ∧
    jGet "_context"
        (dispatchedInput "http_request" [("url", Json.str "https://example.com")] reqPlain) =
      if privilegedToolNames.contains "http_request" then
        (if "http_request" = "get_blocks_and_tools" then none
         else jGet "_context" [("url", Json.str "https://example.com")])
      else some (contextValue reqPlain) :=
  ⟨by decide,
   context_injection_scope "http_request" [("url", Json.str "https://example.com")] reqPlain
     (by decide)⟩

/-- C10: for `edit_workflow` and `get_workflow_console` the argument object
is built as `{ workflowId: request.workflowId, ...toolInput }`, so a
`workflowId` supplied in the model's tool input overrides the
request-scoped one, which is used only when the input omits the field. -/
theorem workflow_id_override (input : List (String × Json)) (req : AgentRequest)
    (hnd : keysNodup input) :
    jGet "workflowId" (dispatchedInput "edit_workflow" input req) =
      some ((jGet "workflowId" input).getD (.str req.workflowId)) ∧
    jGet "workflowId" (dispatchedInput "get_workflow_console" input req) =
      some ((jGet "workflowId" input).getD (.str req.workflowId)) := by
  constructor
  · show jGet "workflowId" (spreadInto [("workflowId", .str req.workflowId)] input) = _
    rw [jGet_spreadInto _ _ _ hnd]
    cases h : jGet "workflowId" input with
    | some v => simp
    | none => simp [jGet_cons]
  · show jGet "workflowId" (spreadInto [("workflowId", .str req.workflowId)] input) = _
    rw [jGet_spreadInto _ _ _ hnd]
    cases h : jGet "workflowId" input with
    | some v => simp
    | none => simp [jGet_cons]

theorem workflow_id_override_witness :
    keysNodup [("workflowId", Json.str "wf-override")] ∧
    jGet "workflowId"
        (dispatchedInput "edit_workflow" [("workflowId", Json.str "wf-override")] reqPlain) =
      some ((jGet "workflowId" [("workflowId", Json.str "wf-override")]).getD
        (.str reqPlain.workflowId)) ∧
    jGet "workflowId"
        (dispatchedInput "get_workflow_console" [("workflowId", Json.str "wf-override")] reqPlain) =
      some ((jGet "workflowId" [("workflowId", Json.str "wf-override")]).getD
        (.str reqPlain.workflowId)) := by
  refine ⟨by decide, ?_⟩
  exact workflow_id_override [("workflowId", Json.str "wf-override")] reqPlain (by decide)

/-! ## Claim theorem: tool cap trimming -/

/-- C7: when the combined tool set exceeds the cap of 100 and the base tools
number at most 100, the trimmed set is exactly all base tools followed by
the first (100 minus base-count) ad hoc tools, preserving order within each
group. -/
theorem tool_cap_trimming (base tools : List ToolSpec)
    (h1 : MAX_TOOLS < (base ++ tools).length) (h2 : base.length ≤ MAX_TOOLS) :
    selectTools base tools = base ++ tools.take (MAX_TOOLS - base.length) := by
  unfold selectTools
  rw [if_pos h1]
  by_cases h3 : base.length < MAX_TOOLS
  · have hpos : (0 : Int) < (MAX_TOOLS : Int) - base.length := by
      omega
    rw [if_pos hpos]
    congr 1
    congr 1
    omega
  · have heq : base.length = MAX_TOOLS := by omega
    have hneg : ¬ ((0 : Int) < (MAX_TOOLS : Int) - base.length) := by omega
    rw [if_neg hneg, heq, Nat.sub_self, List.take_zero, List.append_nil]
    exact List.take_of_length_le (le_of_eq heq)

/-- A throwaway tool for concrete instances. -/
def dummyTool (n : String) : ToolSpec :=
  { name := n, description := Json.str n, input_schema := Json.obj [("type", Json.str "object")] }

theorem tool_cap_trimming_witness :
    MAX_TOOLS <
        ((List.replicate 20 (dummyTool "base")) ++ (List.replicate 130 (dummyTool "extra"))).length ∧
    (List.replicate 20 (dummyTool "base")).length ≤ MAX_TOOLS ∧
    selectTools (List.replicate 20 (dummyTool "base")) (List.replicate 130 (dummyTool "extra")) =
      (List.replicate 20 (dummyTool "base")) ++
        (List.replicate 130 (dummyTool "extra")).take
          (MAX_TOOLS - (List.replicate 20 (dummyTool "base")).length) := by
  refine ⟨by decide, by decide, ?_⟩
  exact tool_cap_trimming _ _ (by decide) (by decide)

/-! ## Loop lemmas -/

theorem loopIter_iterationCount (env : LoopEnv) (req : AgentRequest) (st : LoopState) :
    (loopIter env req st).iterationCount = st.iterationCount + 1 := by
  unfold loopIter
  by_cases h : (toolUseBlocks (env.provider st.iterationCount).content).isEmpty
  · simp [h]
  · simp [h]

theorem loopIter_continue_of_toolUse (env : LoopEnv) (req : AgentRequest) (st : LoopState)
    (h : hasToolUse (env.provider st.iterationCount) = true) :
    (loopIter env req st).continueLoop = st.continueLoop := by
  unfold loopIter
  unfold hasToolUse at h
  have h2 : (toolUseBlocks (env.provider st.iterationCount).content).isEmpty = false := by
    cases he : (toolUseBlocks (env.provider st.iterationCount).content).isEmpty
    · rfl
    · rw [he] at h; simp at h
  simp [h2]

theorem loopIter_noToolUse (env : LoopEnv) (req : AgentRequest) (st : LoopState)
    (h : hasToolUse (env.provider st.iterationCount) = false) :
    loopIter env req st =
      { st with
        iterationCount := st.iterationCount + 1
        events := (st.events ++ (env.provider st.iterationCount).deltas.map StreamEvent.delta) ++
          [.done (some ((env.provider st.iterationCount).stopReason,
                        (env.provider st.iterationCount).inputTokens,
                        (env.provider st.iterationCount).outputTokens))]
        continueLoop := false } := by
  unfold loopIter
  unfold hasToolUse at h
  have h2 : (toolUseBlocks (env.provider st.iterationCount).content).isEmpty = true := by
    cases he : (toolUseBlocks (env.provider st.iterationCount).content).isEmpty
    · rw [he] at h; simp at h
    · rfl
  simp [h2]

theorem runLoop_stopped (env : LoopEnv) (req : AgentRequest) (fuel : Nat) (st : LoopState)
    (h : st.continueLoop = false) : runLoop env req fuel st = st := by
  cases fuel with
  | zero => rfl
  | succ n =>
    unfold runLoop
    rw [if_neg]
    intro hc
    rw [h] at hc
    exact absurd hc.1 (by simp)

/-- With a tool-invocation-request in every provider turn the loop runs the
counter all the way to the cap. -/
theorem runLoop_allToolUse (env : LoopEnv) (req : AgentRequest)
    (h : ∀ i, hasToolUse (env.provider i) = true) :
    ∀ fuel st, st.continueLoop = true → st.iterationCount + fuel = maxIterations →
      (runLoop env req fuel st).iterationCount = maxIterations := by
  intro fuel
  induction fuel with
  | zero =>
    intro st hc hi
    simpa [runLoop] using hi
  | succ n ih =>
    intro st hc hi
    unfold runLoop
    rw [if_pos ⟨hc, by omega⟩]
    apply ih
    · rw [loopIter_continue_of_toolUse env req st (h st.iterationCount)]
      exact hc
    · rw [loopIter_iterationCount]
      omega

/-- C1: when every completed provider turn contains at least one
tool-invocation-request, the tool-execution loop stops after exactly the
iteration cap (10) iterations, and the stream then carries the explicit
cap-describing error event followed by a terminal bare done event before
the stream closes. -/
theorem loop_stops_at_iteration_cap (env : LoopEnv) (req : AgentRequest)
    (h : ∀ i, hasToolUse (env.provider i) = true) :
    (runAgentLoop env req).iterationCount = maxIterations ∧
    ∃ es, (runAgentLoop env req).events = es ++ [capErrorEvent, .done none] := by
  have hcap := runLoop_allToolUse env req h maxIterations (initialState req) rfl
    (by simp [initialState])
  unfold runAgentLoop finishRun
  constructor
  · exact hcap
  · rw [if_pos (le_of_eq hcap.symm)]
    exact ⟨_, rfl⟩

/-- A provider turn that always asks for one tool call. -/
def msgWithTool : FinalMessage :=
  { deltas := []
    content := [.toolUse "call-1" "http_request" []]
    stopReason := "tool_use"
    inputTokens := 5
    outputTokens := 7 }

/-- A provider turn with no tool call. -/
def msgPlainText : FinalMessage :=
  { deltas := [.contentDelta "done"]
    content := [.text "done"]
    stopReason := "end_turn"
    inputTokens := 5
    outputTokens := 7 }

/-- An environment whose provider asks for a tool call on every turn. -/
def envAllTools : LoopEnv :=
  { provider := fun _ => msgWithTool
    toolExec := fun _ _ => { success := true, result := some (Json.str "ok"), error := none } }

theorem loop_stops_at_iteration_cap_witness :
    (∀ i, hasToolUse (envAllTools.provider i) = true) ∧
    ((runAgentLoop envAllTools reqPlain).iterationCount = maxIterations ∧
      ∃ es, (runAgentLoop envAllTools reqPlain).events = es ++ [capErrorEvent, .done none]) :=
  ⟨fun _ => rfl, loop_stops_at_iteration_cap envAllTools reqPlain (fun _ => rfl)⟩

/-- When the provider requests tools on every iteration before the last
allowed one and none on the last, the loop ends with the in-loop done event
and the counter at the cap. -/
theorem runLoop_lastTurnPlain (env : LoopEnv) (req : AgentRequest)
    (h1 : ∀ i, i < maxIterations - 1 → hasToolUse (env.provider i) = true)
    (h2 : hasToolUse (env.provider (maxIterations - 1)) = false) :
    ∀ fuel st, st.continueLoop = true → st.iterationCount + fuel = maxIterations → 1 ≤ fuel →
      (runLoop env req fuel st).iterationCount = maxIterations ∧
      ∃ es, (runLoop env req fuel st).events = es ++
        [.done (some ((env.provider (maxIterations - 1)).stopReason,
                      (env.provider (maxIterations - 1)).inputTokens,
                      (env.provider (maxIterations - 1)).outputTokens))] := by
  intro fuel
  induction fuel with
  | zero => intro st hc hi hf; omega
  | succ n ih =>
    intro st hc hi hf
    by_cases hlast : st.iterationCount = maxIterations - 1
    · unfold runLoop
      rw [if_pos ⟨hc, by omega⟩]
      have hstep := loopIter_noToolUse env req st (hlast ▸ h2)
      have hstop : (loopIter env req st).continueLoop = false := by rw [hstep]
      rw [runLoop_stopped env req n _ hstop, hstep]
      constructor
      · show st.iterationCount + 1 = maxIterations
        omega
      · show ∃ es, (st.events ++ _) ++ [_] = es ++ [_]
        rw [hlast]
        exact ⟨_, rfl⟩
    · unfold runLoop
      rw [if_pos ⟨hc, by omega⟩]
      apply ih
      · rw [loopIter_continue_of_toolUse env req st (h1 st.iterationCount (by omega))]
        exact hc
      · rw [loopIter_iterationCount]
        omega
      · omega

/-- C9: when the provider's completed turn contains no
tool-invocation-request on exactly the final allowed (10th) iteration, the
stream emits the normal terminal done event (with stop reason and usage)
and then additionally the max-iterations error event followed by a second
done event, because the post-loop cap check tests only the iteration count
and not how the loop exited. -/
theorem done_then_cap_error_on_last_iteration (env : LoopEnv) (req : AgentRequest)
    (h1 : ∀ i, i < maxIterations - 1 → hasToolUse (env.provider i) = true)
    (h2 : hasToolUse (env.provider (maxIterations - 1)) = false) :
    ∃ es, (runAgentLoop env req).events = es ++
      [.done (some ((env.provider (maxIterations - 1)).stopReason,
                    (env.provider (maxIterations - 1)).inputTokens,
                    (env.provider (maxIterations - 1)).outputTokens)),
       capErrorEvent, .done none] := by
  obtain ⟨hcount, es, hes⟩ :=
    runLoop_lastTurnPlain env req h1 h2 maxIterations (initialState req) rfl
      (by simp [initialState]) (by simp [maxIterations])
  unfold runAgentLoop finishRun
  rw [if_pos (le_of_eq hcount.symm), hes]
  refine ⟨es, ?_⟩
  simp

/-- An environment that requests tools for nine turns and then stops. -/
def envNineTools : LoopEnv :=
  { provider := fun i => if i < 9 then msgWithTool else msgPlainText
    toolExec := fun _ _ => { success := true, result := some (Json.str "ok"), error := none } }

theorem done_then_cap_error_on_last_iteration_witness :
    (∀ i, i < maxIterations - 1 → hasToolUse (envNineTools.provider i) = true) ∧
    hasToolUse (envNineTools.provider (maxIterations - 1)) = false ∧
    ∃ es, (runAgentLoop envNineTools reqPlain).events = es ++
      [.done (some ((envNineTools.provider (maxIterations - 1)).stopReason,
                    (envNineTools.provider (maxIterations - 1)).inputTokens,
                    (envNineTools.provider (maxIterations - 1)).outputTokens)),
       capErrorEvent, .done none] := by
  have h1 : ∀ i, i < maxIterations - 1 → hasToolUse (envNineTools.provider i) = true := by
    intro i hi
    have hi9 : i < 9 := by
      simpa [maxIterations] using hi
    simp [envNineTools, hi9]
    rfl
  have h2 : hasToolUse (envNineTools.provider (maxIterations - 1)) = false := by decide
  exact ⟨h1, h2, done_then_cap_error_on_last_iteration envNineTools reqPlain h1 h2⟩

/-! ## Claim theorems: the conversation log (C4) -/

/-- The C4 run used for the counterexample: one general-registry tool call
in the first turn, plain text in the second, one OAuth credential
available. -/
def reqOneCred : AgentRequest :=
  { message := "send it"
    workflowId := "wf-9"
    userId := "user-9"
    oauthKeys := some ["gmail-oauth"]
    conversationHistory := [] }

def envOneToolTurn : LoopEnv :=
  { provider := fun i => if i = 0 then msgWithTool else msgPlainText
    toolExec := fun _ _ => { success := true, result := some (Json.str "ok"), error := none } }

/-- C4, counterexample: the claim says every turn, once appended, is never
modified in place, i.e. the final conversation is exactly the prior history
followed by the turns as they were appended.  Executing the
general-registry tool call mutates the appended assistant turn's tool-use
input through the shared object (adding `credential` and `_context`), so
the final conversation differs from the append-time log. -/
theorem append_only_counterexample :
    ¬ ((runAgentLoop envOneToolTurn reqOneCred).conversation =
        reqOneCred.conversationHistory ++ (runAgentLoop envOneToolTurn reqOneCred).appended) := by
  decide

theorem loopIter_appendLog (env : LoopEnv) (req : AgentRequest) (C0 : List ChatMessage)
    (st : LoopState)
    (h : st.conversation = C0 ++ st.appended.map (mutateTurn req)) :
    (loopIter env req st).conversation =
      C0 ++ (loopIter env req st).appended.map (mutateTurn req) := by
  unfold loopIter
  by_cases he : (toolUseBlocks (env.provider st.iterationCount).content).isEmpty
  · simp [he, h]
  · simp only [he, Bool.false_eq_true, if_false]
    show st.conversation ++ _ = C0 ++ List.map _ (st.appended ++ _)
    rw [List.map_append, h, List.append_assoc]
    congr 1

/-- The conversation is always the history plus the appended log with the
in-place tool-input mutations applied. -/
theorem runLoop_appendLog (env : LoopEnv) (req : AgentRequest) (C0 : List ChatMessage) :
    ∀ fuel st, st.conversation = C0 ++ st.appended.map (mutateTurn req) →
      (runLoop env req fuel st).conversation =
        C0 ++ (runLoop env req fuel st).appended.map (mutateTurn req) := by
  intro fuel
  induction fuel with
  | zero => intro st h; exact h
  | succ n ih =>
    intro st h
    unfold runLoop
    by_cases hg : st.continueLoop = true ∧ st.iterationCount < maxIterations
    · rw [if_pos hg]
      exact ih _ (loopIter_appendLog env req C0 st h)
    · rw [if_neg hg]
      exact h

/-- C4 (amended): the conversation grows only by appending turns at the
end — the final conversation is the caller's history followed by the
appended turns — but an appended assistant turn is not immutable: executing
a general-registry tool call mutates the shared tool-use input object in
place (adding `_context` and, when OAuth credentials exist, `credential`),
so each appended turn reappears with exactly that mutation applied
(`mutateTurn`); non-assistant turns and turns whose tool calls are all
privileged are unchanged. -/
theorem conversation_is_history_plus_mutated_appends (env : LoopEnv) (req : AgentRequest) :
    (runAgentLoop env req).conversation =
      req.conversationHistory ++
        (runAgentLoop env req).appended.map (mutateTurn req) := by
  unfold runAgentLoop finishRun
  show (runLoop env req maxIterations (initialState req)).conversation = _
  apply runLoop_appendLog
  simp [initialState, mutateTurn]

/-! ## Claim theorems: tool-name deduplication (C8) -/

theorem mapM_ok_forall2 {α β : Type} (f : α → Except Unit β) :
    ∀ (ts : List α) (cs : List β), ts.mapM f = .ok cs →
      List.Forall₂ (fun t c => f t = .ok c) ts cs := by
  intro ts
  induction ts with
  | nil =>
    intro cs h
    rw [List.mapM_nil] at h
    have h2 : Except.ok ([] : List β) = Except.ok cs := h
    injection h2 with h3
    rw [← h3]
    exact List.Forall₂.nil
  | cons t rest ih =>
    intro cs h
    rw [List.mapM_cons] at h
    rcases except_bind_ok.mp h with ⟨c, hc, h2⟩
    rcases except_bind_ok.mp h2 with ⟨cs2, hcs2, h3⟩
    have h4 : Except.ok (c :: cs2) = Except.ok cs := h3
    injection h4 with h5
    rw [← h5]
    exact List.Forall₂.cons hc (ih cs2 hcs2)

theorem convertTool_name (rv : String → Bool) (t ct : ToolSpec)
    (h : convertTool rv t = .ok ct) : ct.name = t.name := by
  unfold convertTool at h
  rcases except_bind_ok.mp h with ⟨cleaned, hc, h2⟩
  dsimp only at h2
  split at h2 <;>
    first
      | (simp only [Pure.pure, Except.pure, Except.ok.injEq] at h2
         rw [← h2])
      | exact absurd h2 (by simp)

theorem find?_eq_head?_filter {α : Type} (p : α → Bool) (l : List α) :
    l.find? p = (l.filter p).head? := by
  induction l with
  | nil => rfl
  | cons x rest ih =>
    by_cases h : p x
    · simp [h]
    · simpa [h] using ih

theorem dedupTools_filter (n : String) :
    ∀ (cts : List ToolSpec) (seen : List String),
      (dedupTools cts seen).filter (fun c => c.name = n) =
        if seen.contains n then []
        else
          match cts.find? (fun c => c.name = n) with
          | some c => [c]
          | none => [] := by
  intro cts
  induction cts with
  | nil =>
    intro seen
    by_cases h : seen.contains n
    · simp [dedupTools, h]
    · simp [dedupTools, h]
  | cons c rest ih =>
    intro seen
    unfold dedupTools
    by_cases hseen : seen.contains c.name
    · rw [if_pos hseen, ih seen]
      by_cases hn : seen.contains n
      · rw [if_pos hn, if_pos hn]
      · have hcn : ¬ (decide (c.name = n) = true) := by
          simp only [decide_eq_true_eq]
          intro hcc
          rw [← hcc] at hn
          exact hn hseen
        have hfind : List.find? (fun c2 : ToolSpec => decide (c2.name = n)) (c :: rest) =
            List.find? (fun c2 : ToolSpec => decide (c2.name = n)) rest :=
          List.find?_cons_of_neg _ hcn
        rw [if_neg hn, if_neg hn, hfind]
    · rw [if_neg hseen]
      by_cases hcn : c.name = n
      · have hn : ¬ (seen.contains n = true) := by
          rw [← hcn]
          exact hseen
        have hpos : ((c.name :: seen).contains n) = true := by
          rw [List.contains_cons, hcn]
          simp
        rw [List.filter_cons_of_pos (by simp [hcn]), ih (c.name :: seen)]
        have hfind : List.find? (fun c2 : ToolSpec => decide (c2.name = n)) (c :: rest) =
            some c :=
          List.find?_cons_of_pos _ (by simp [hcn])
        rw [if_pos hpos, if_neg hn, hfind]
      · rw [List.filter_cons_of_neg (by simp [hcn]), ih (c.name :: seen)]
        by_cases hn : seen.contains n
        · have hpos : ((c.name :: seen).contains n) = true := by
            rw [List.contains_cons, hn]
            simp
          rw [if_pos hpos, if_pos hn]
        · have hcons : ¬ (((c.name :: seen).contains n) = true) := by
            rw [List.contains_cons]
            simp only [Bool.or_eq_true, not_or]
            constructor
            · simp only [beq_iff_eq]
              intro hh
              exact hcn hh.symm
            · exact hn
          have hfind : List.find? (fun c2 : ToolSpec => decide (c2.name = n)) (c :: rest) =
              List.find? (fun c2 : ToolSpec => decide (c2.name = n)) rest :=
            List.find?_cons_of_neg _ (by simp [hcn])
          rw [if_neg hcons, if_neg hn, hfind]

theorem forall2_find?_name (rv : String → Bool) (n : String) :
    ∀ (ts cs : List ToolSpec),
      List.Forall₂ (fun t c => convertTool rv t = .ok c) ts cs →
      (∀ ct, cs.find? (fun c => c.name = n) = some ct →
        ∃ t, ts.find? (fun t => t.name = n) = some t ∧ convertTool rv t = .ok ct) ∧
      (cs.find? (fun c => c.name = n) = none → ts.find? (fun t => t.name = n) = none) := by
  intro ts
  induction ts with
  | nil =>
    intro cs h
    cases h
    exact ⟨fun ct hct => by simp [List.find?] at hct, fun _ => rfl⟩
  | cons t rest ih =>
    intro cs h
    cases h with
    | cons hf hrest =>
      rename_i c cs2
      have hname := convertTool_name rv t c hf
      by_cases hn : t.name = n
      · constructor
        · intro ct hct
          rw [List.find?_cons_of_pos _ (by simp [hname, hn])] at hct
          refine ⟨t, ?_, ?_⟩
          · rw [List.find?_cons_of_pos _ (by simp [hn])]
          · injection hct with hct2
            rw [← hct2]
            exact hf
        · intro hct
          rw [List.find?_cons_of_pos _ (by simp [hname, hn])] at hct
          cases hct
      · constructor
        · intro ct hct
          rw [List.find?_cons_of_neg _ (by simp [hname, hn])] at hct
          obtain ⟨t2, ht2, hconv⟩ := (ih cs2 hrest).1 ct hct
          refine ⟨t2, ?_, hconv⟩
          rw [List.find?_cons_of_neg _ (by simp [hn])]
          exact ht2
        · intro hct
          rw [List.find?_cons_of_neg _ (by simp [hname, hn])] at hct
          rw [List.find?_cons_of_neg _ (by simp [hn])]
          exact (ih cs2 hrest).2 hct

/-- C8: when the submitted tool set contains two entries sharing one name,
the converted set handed to the provider keeps exactly one entry under that
name — the conversion of the first occurrence — and drops the later
duplicate rather than keeping it or failing. -/
theorem duplicate_tool_name_dropped (rv : String → Bool) (tools l : List ToolSpec) (n : String)
    (hok : convertToolsToAnthropic rv tools = .ok l)
    (hdup : 2 ≤ (tools.filter (fun t => t.name = n)).length) :
    (l.filter (fun c => c.name = n)).length = 1 ∧
    ∃ t ct, tools.find? (fun t => t.name = n) = some t ∧
      convertTool rv t = .ok ct ∧ l.find? (fun c => c.name = n) = some ct := by
  unfold convertToolsToAnthropic at hok
  rcases except_bind_ok.mp hok with ⟨cts, hcts, h2⟩
  have h2b : Except.ok (dedupTools cts []) = Except.ok l := h2
  injection h2b with h2c
  have hforall := mapM_ok_forall2 (convertTool rv) tools cts hcts
  have hexists : tools.find? (fun t => t.name = n) ≠ none := by
    intro hnone
    have hfil0 : (tools.filter (fun t => t.name = n)) = [] := by
      rw [find?_eq_head?_filter] at hnone
      cases hfil : tools.filter (fun t => t.name = n)
      · rfl
      · rw [hfil] at hnone; simp at hnone
    rw [hfil0] at hdup
    simp at hdup
  have hctsfind : cts.find? (fun c => c.name = n) ≠ none := by
    intro hnone
    exact hexists ((forall2_find?_name rv n tools cts hforall).2 hnone)
  cases hfc : cts.find? (fun c => c.name = n) with
  | none => exact absurd hfc hctsfind
  | some ct0 =>
    obtain ⟨t0, ht0, hconv0⟩ := (forall2_find?_name rv n tools cts hforall).1 ct0 hfc
    have hfil : l.filter (fun c => c.name = n) = [ct0] := by
      rw [← h2c, dedupTools_filter n cts []]
      simp only [List.contains_nil, Bool.false_eq_true, if_false]
      rw [hfc]
    constructor
    · rw [hfil]
      rfl
    · refine ⟨t0, ct0, ht0, hconv0, ?_⟩
      rw [find?_eq_head?_filter, hfil]
      rfl

theorem duplicate_tool_name_dropped_witness :
    ∃ l, convertToolsToAnthropic rvTrue [dummyTool "slack", dummyTool "slack"] = .ok l ∧
      2 ≤ (([dummyTool "slack", dummyTool "slack"]).filter
        (fun t => t.name = "slack")).length ∧
      ((l.filter (fun c => c.name = "slack")).length = 1 ∧
        ∃ t ct,
          ([dummyTool "slack", dummyTool "slack"]).find? (fun t => t.name = "slack") = some t ∧
          convertTool rvTrue t = .ok ct ∧ l.find? (fun c => c.name = "slack") = some ct) := by
  have hclean : cleanJsonSchema rvTrue (Json.obj [("type", Json.str "object")]) =
      .ok (Json.obj [("type", Json.str "object")]) := by
    rw [cleanJsonSchema_obj, cleanFields_peel]
    decide
  have hone : convertTool rvTrue (dummyTool "slack") =
      .ok { name := "slack", description := Json.str "slack",
            input_schema := Json.obj [("type", Json.str "object")] } := by
    unfold convertTool dummyTool
    dsimp only
    rw [if_neg (by decide), hclean]
    decide
  have hok : convertToolsToAnthropic rvTrue [dummyTool "slack", dummyTool "slack"] =
      .ok [{ name := "slack", description := Json.str "slack",
             input_schema := Json.obj [("type", Json.str "object")] }] := by
    unfold convertToolsToAnthropic
    rw [List.mapM_cons, List.mapM_cons, List.mapM_nil, hone]
    decide
  refine ⟨_, hok, by decide, ?_⟩
  exact duplicate_tool_name_dropped rvTrue [dummyTool "slack", dummyTool "slack"] _ "slack"
    hok (by decide)

/-! ## Claim theorems: `type` normalization (C6) -/

theorem jGet_jDel_ne (k k2 : String) (l : List (String × Json)) (h : k ≠ k2) :
    jGet k (jDel k2 l) = jGet k l := by
  induction l with
  | nil => rfl
  | cons p rest ih =>
    cases p with
    | mk k1 v1 =>
      by_cases h1 : k1 = k2
      · have h2 : ¬ k1 = k := by
          intro hh
          subst hh
          exact h h1
        rw [jDel, List.filter_cons_of_neg (by simp [h1])]
        rw [jGet_cons, if_neg h2]
        exact ih
      · rw [jDel, List.filter_cons_of_pos (by simp [h1])]
        by_cases h2 : k1 = k
        · rw [jGet_cons, if_pos h2, jGet_cons, if_pos h2]
        · rw [jGet_cons, if_neg h2, jGet_cons, if_neg h2]
          exact ih

theorem jGet_stepAllow {k : String} (hk : allowedTopLevelProps.contains k = true)
    (l : List (String × Json)) : jGet k (stepAllow l) = jGet k l := by
  induction l with
  | nil => rfl
  | cons p rest ih =>
    cases p with
    | mk k1 v1 =>
      by_cases h1 : k1 = k
      · rw [stepAllow, List.filter_cons_of_pos (by simpa [h1] using hk)]
        rw [jGet_cons, if_pos h1, jGet_cons, if_pos h1]
      · by_cases h2 : allowedTopLevelProps.contains k1
        · rw [stepAllow, List.filter_cons_of_pos (by simpa using h2)]
          rw [jGet_cons, if_neg h1, jGet_cons, if_neg h1]
          exact ih
        · rw [stepAllow, List.filter_cons_of_neg (by simpa using h2)]
          rw [jGet_cons, if_neg h1]
          exact ih

/-- The `type` normalization step, as a lookup transformer. -/
theorem jGet_type_stepType (l : List (String × Json)) :
    jGet "type" (stepType l) =
      match jGet "type" l with
      | some (Json.str s) => some (Json.str (if validTypes.contains s then s else "string"))
      | some v => some v
      | none => some (Json.str "object") := by
  unfold stepType
  cases hg : jGet "type" l with
  | none => simp [jGet_jSet_self]
  | some v =>
    cases v with
    | str s =>
      by_cases hc : validTypes.contains s
      · have hm : s ∈ validTypes := by simpa using hc
        simp [hm, hg]
      · have hm : s ∉ validTypes := by simpa using hc
        simp [hm, jGet_jSet_self]
    | null => simp [hg]
    | bool b => simp [hg]
    | num n => simp [hg]
    | arr es => simp [hg]
    | obj gs => simp [hg]

/-- The pure prefix of the pipeline, as a `type` lookup transformer. -/
theorem jGet_type_prefixStages (fs0 : List (String × Json)) :
    jGet "type" (prefixStages fs0) =
      match jGet "type" fs0 with
      | some (Json.str s) => some (Json.str (if validTypes.contains s then s else "string"))
      | some v => some v
      | none => some (Json.str "object") := by
  unfold prefixStages
  rw [jGet_jDel_ne "type" "nullable" _ (by decide), jGet_type_stepType,
    jGet_stepAllow (by decide), jGet_jDel_ne "type" "$schema" fs0 (by decide)]

theorem jGet_propsStage {rv : String → Bool} {l c : List (String × Json)} {k : String}
    (hk : k ≠ "properties") (h : propsStage rv l = .ok c) : jGet k c = jGet k l := by
  unfold propsStage at h
  split at h
  · rcases hps : cleanProps rv _ with e | ps
    · rw [hps] at h; exact absurd h (by simp [Except.map])
    · rw [hps] at h
      simp only [Except.map, Except.ok.injEq] at h
      rw [← h, jGet_jSet_ne _ _ _ _ hk]
  · rcases hes : cleanElems rv _ with e | es
    · rw [hes] at h; exact absurd h (by simp [Except.map])
    · rw [hes] at h
      simp only [Except.map, Except.ok.injEq] at h
      rw [← h, jGet_jSet_ne _ _ _ _ hk]
  · have h2 : Except.ok l = Except.ok c := h
    injection h2 with h3
    rw [h3]

theorem jGet_itemsGateStage {k : String} (hk : k ≠ "items") (l : List (String × Json)) :
    jGet k (itemsGateStage l) = jGet k l := by
  unfold itemsGateStage
  split
  · split
    · rw [jGet_jDel_ne _ _ _ hk]
    · rfl
  · rfl

theorem jGet_itemsStage {rv : String → Bool} {l c : List (String × Json)} {k : String}
    (hk : k ≠ "items") (h : itemsStage rv l = .ok c) : jGet k c = jGet k l := by
  unfold itemsStage at h
  split at h
  · split at h
    · split at h
      · rcases hes : cleanElems rv _ with e | es2
        · rw [hes] at h; exact absurd h (by simp [Except.map])
        · rw [hes] at h
          simp only [Except.map, Except.ok.injEq] at h
          rw [← h, jGet_jSet_ne _ _ _ _ hk]
      · rcases hv : cleanJsonSchema rv _ with e | v2
        · rw [hv] at h; exact absurd h (by simp [Except.map])
        · rw [hv] at h
          simp only [Except.map, Except.ok.injEq] at h
          rw [← h, jGet_jSet_ne _ _ _ _ hk]
    · have h2 : Except.ok l = Except.ok c := h
      injection h2 with h3
      rw [h3]
  · have h2 : Except.ok l = Except.ok c := h
    injection h2 with h3
    rw [h3]

theorem jGet_stepRequired {k : String} (hk : k ≠ "required") (l : List (String × Json)) :
    jGet k (stepRequired l) = jGet k l := by
  unfold stepRequired
  split
  · split
    · split
      · split
        · rw [jGet_jDel_ne _ _ _ hk]
        · rw [jGet_jSet_ne _ _ _ _ hk]
      · rw [jGet_jDel_ne _ _ _ hk]
    · rfl
  · rfl

theorem jGet_combStage {rv : String → Bool} {key : String} {l c : List (String × Json)}
    {k : String} (hk : k ≠ key) (h : combStage rv key l = .ok c) : jGet k c = jGet k l := by
  unfold combStage at h
  split at h
  · rcases hes : cleanElems rv _ with e | es2
    · rw [hes] at h; exact absurd h (by simp [Except.map])
    · rw [hes] at h
      simp only [Except.map, Except.ok.injEq] at h
      rw [← h, jGet_jSet_ne _ _ _ _ hk]
  · have h2 : Except.ok l = Except.ok c := h
    injection h2 with h3
    rw [h3]

theorem jGet_notStage {rv : String → Bool} {l c : List (String × Json)} {k : String}
    (hk : k ≠ "not") (h : notStage rv l = .ok c) : jGet k c = jGet k l := by
  unfold notStage at h
  split at h
  · split at h
    · rcases hv : cleanJsonSchema rv _ with e | v2
      · rw [hv] at h; exact absurd h (by simp [Except.map])
      · rw [hv] at h
        simp only [Except.map, Except.ok.injEq] at h
        rw [← h, jGet_jSet_ne _ _ _ _ hk]
    · have h2 : Except.ok l = Except.ok c := h
      injection h2 with h3
      rw [h3]
  · have h2 : Except.ok l = Except.ok c := h
    injection h2 with h3
    rw [h3]

theorem jGet_stepPattern {rv : String → Bool} {k : String} (hk : k ≠ "pattern")
    (l : List (String × Json)) : jGet k (stepPattern rv l) = jGet k l := by
  unfold stepPattern
  split
  · split
    · rfl
    · split
      · rfl
      · dsimp only
        split
        · rw [jGet_jSet_ne _ _ _ _ hk]
        · rw [jGet_jDel_ne _ _ _ hk]
  · rfl

/-- The final cleanup pass keeps a looked-up entry whose value is non-null
and passes the keep test, and keeps it first under its key. -/
theorem finalPass_jGet {k : String} {v : Json} :
    ∀ {l l2 : List (String × Json)}, finalPass l = .ok l2 → jGet k l = some v →
      v ≠ Json.null → keepVal k v = true → jGet k l2 = some v := by
  intro l
  induction l with
  | nil =>
    intro l2 _ hg
    rw [jGet_nil] at hg
    exact absurd hg (by simp)
  | cons p rest ih =>
    intro l2 h hg hnull hkeep
    cases p with
    | mk k1 v1 =>
      rw [jGet_cons] at hg
      unfold finalPass at h
      by_cases h1 : k1 = k
      · rw [if_pos h1] at hg
        injection hg with hg2
        rw [h1, hg2] at h
        rw [if_neg hnull, if_pos hkeep] at h
        rcases except_bind_ok.mp h with ⟨rest2, _, h3⟩
        have h4 : Except.ok ((k, v) :: rest2) = Except.ok l2 := h3
        injection h4 with h5
        rw [← h5, jGet_cons, if_pos rfl]
      · rw [if_neg h1] at hg
        by_cases hv1 : v1 = Json.null
        · rw [if_pos hv1] at h
          split at h
          · exact ih h hg hnull hkeep
          · exact absurd h (by simp)
        · rw [if_neg hv1] at h
          by_cases hk1 : keepVal k1 v1
          · rw [if_pos hk1] at h
            rcases except_bind_ok.mp h with ⟨rest2, h2, h3⟩
            have h4 : Except.ok ((k1, v1) :: rest2) = Except.ok l2 := h3
            injection h4 with h5
            rw [← h5, jGet_cons, if_neg h1]
            exact ih h2 hg hnull hkeep
          · rw [if_neg hk1] at h
            exact ih h hg hnull hkeep

theorem keepVal_type_str {s : String} (hs : s ≠ "") :
    keepVal "type" (Json.str s) = true := by
  simp [keepVal, hs]

theorem valid_type_ne_empty {s : String} (hc : validTypes.contains s = true) : s ≠ "" := by
  intro he
  subst he
  exact absurd hc (by decide)

/-- C6 counterexample: the schema `{"type": ""}` is normalized to
`{"type": "string"}`, not to `{"type": "object"}` as the claim's
empty-string case demands.  Since `typeof '' === 'string'`, the empty
string takes the invalid-string branch of the source (coercion to
"string"); the `else if (cleaned.type === '')` branch is unreachable. -/
theorem empty_type_counterexample :
    cleanJsonSchema rvTrue (Json.obj [("type", Json.str "")]) =
      .ok (Json.obj [("type", Json.str "string")]) ∧
    (Json.obj [("type", Json.str "string")] : Json) ≠ Json.obj [("type", Json.str "object")] := by
  constructor
  · rw [cleanJsonSchema_obj, cleanFields_peel]
    decide
  · decide

/-- C6 (amended): on an object schema whose `type` is a string or absent, the
normalizer's output is an object whose `type` is a string from the valid set:
a present string not among the seven primitive names — including the empty
string — is coerced to "string", a valid name is kept, and an absent `type`
defaults to "object". -/
theorem type_always_normalized (rv : String → Bool) (fs : List (String × Json)) (y : Json)
    (hok : cleanJsonSchema rv (Json.obj fs) = .ok y) :
    ∃ ys, y = Json.obj ys ∧
      (∀ s, jGet "type" fs = some (Json.str s) →
        jGet "type" ys = some (Json.str (if validTypes.contains s then s else "string"))) ∧
      (jGet "type" fs = none → jGet "type" ys = some (Json.str "object")) := by
  rw [cleanJsonSchema_obj] at hok
  rcases except_bind_ok.mp hok with ⟨ys, hys, hpure⟩
  have hpure2 : Except.ok (Json.obj ys) = Except.ok y := hpure
  injection hpure2 with hy
  refine ⟨ys, hy.symm, ?_⟩
  rcases cleanFields_ok_iff.mp hys with ⟨c5, c7, c9, c10, c11, c12, h5, h7, h9, h10, h11, h12, hfp⟩
  have e12 : jGet "type" c12 = jGet "type" (prefixStages fs) := by
    rw [jGet_notStage (by decide) h12, jGet_combStage (by decide) h11,
      jGet_combStage (by decide) h10, jGet_combStage (by decide) h9,
      jGet_stepRequired (by decide), jGet_itemsStage (by decide) h7,
      jGet_itemsGateStage (by decide), jGet_propsStage (by decide) h5]
  have epat : jGet "type" (stepPattern rv c12) = jGet "type" (prefixStages fs) := by
    rw [jGet_stepPattern (by decide), e12]
  constructor
  · intro s hs
    have htv : jGet "type" (stepPattern rv c12) =
        some (Json.str (if validTypes.contains s then s else "string")) := by
      rw [epat, jGet_type_prefixStages, hs]
    refine finalPass_jGet hfp htv (by simp) ?_
    by_cases hc : validTypes.contains s
    · rw [if_pos hc]
      exact keepVal_type_str (valid_type_ne_empty hc)
    · rw [if_neg hc]
      decide
  · intro hn
    have htv : jGet "type" (stepPattern rv c12) = some (Json.str "object") := by
      rw [epat, jGet_type_prefixStages, hn]
    exact finalPass_jGet hfp htv (by simp) (by decide)

theorem type_always_normalized_witness :
    ∃ ys, (Json.obj [("type", Json.str "string")] : Json) = Json.obj ys ∧
      (∀ s, jGet "type" [("type", Json.str "")] = some (Json.str s) →
        jGet "type" ys = some (Json.str (if validTypes.contains s then s else "string"))) ∧
      (jGet "type" [("type", Json.str "")] = none →
        jGet "type" ys = some (Json.str "object")) := by
  have hok : cleanJsonSchema rvTrue (Json.obj [("type", Json.str "")]) =
      .ok (Json.obj [("type", Json.str "string")]) := by
    rw [cleanJsonSchema_obj, cleanFields_peel]
    decide
  exact type_always_normalized rvTrue [("type", Json.str "")] _ hok

/-! ## Claim support: idempotence on flat schemas (C5) -/

theorem jGet_jDel_self (k : String) (l : List (String × Json)) : jGet k (jDel k l) = none := by
  induction l with
  | nil => rfl
  | cons p rest ih =>
    cases p with
    | mk k1 v1 =>
      by_cases h1 : k1 = k
      · rw [jDel, List.filter_cons_of_neg (by simp [h1])]
        exact ih
      · rw [jDel, List.filter_cons_of_pos (by simp [h1])]
        rw [jGet_cons, if_neg h1]
        exact ih

theorem jDel_of_jGet_none {k : String} {l : List (String × Json)} (h : jGet k l = none) :
    jDel k l = l := by
  induction l with
  | nil => rfl
  | cons p rest ih =>
    cases p with
    | mk k1 v1 =>
      rw [jGet_cons] at h
      by_cases h1 : k1 = k
      · rw [if_pos h1] at h
        exact absurd h (by simp)
      · rw [if_neg h1] at h
        rw [jDel, List.filter_cons_of_pos (by simp [h1])]
        have h2 := ih h
        unfold jDel at h2
        rw [h2]

theorem jSet_of_jGet_eq {k : String} {v : Json} {l : List (String × Json)}
    (h : jGet k l = some v) : jSet k v l = l := by
  induction l with
  | nil =>
    rw [jGet_nil] at h
    exact absurd h (by simp)
  | cons p rest ih =>
    cases p with
    | mk k1 v1 =>
      rw [jGet_cons] at h
      by_cases h1 : k1 = k
      · rw [if_pos h1] at h
        injection h with h2
        rw [jSet, if_pos h1, h1, h2]
      · rw [if_neg h1] at h
        rw [jSet, if_neg h1, ih h]

theorem not_mem_of_jGet_none {k : String} {v : Json} {l : List (String × Json)}
    (h : jGet k l = none) : (k, v) ∉ l := by
  intro hm
  unfold jGet at h
  cases hf : l.find? (fun p => p.1 = k) with
  | some p => rw [hf] at h; simp at h
  | none =>
    have := List.find?_eq_none.mp hf (k, v) hm
    simp at this

theorem jGet_ne_none_of_mem {k : String} {v : Json} {l : List (String × Json)}
    (hm : (k, v) ∈ l) : jGet k l ≠ none := fun h => not_mem_of_jGet_none h hm

/-- Key-allowlist invariant used for the second pass. -/
def keysAllowed (l : List (String × Json)) : Prop :=
  ∀ k v, (k, v) ∈ l → allowedTopLevelProps.contains k = true

theorem keysAllowed_stepAllow (l : List (String × Json)) : keysAllowed (stepAllow l) := by
  intro k v hm
  have := List.mem_filter.mp hm
  simpa using this.2

theorem keysAllowed_jDel {k2 : String} {l : List (String × Json)} (h : keysAllowed l) :
    keysAllowed (jDel k2 l) := fun k v hm => h k v (mem_jDel hm)

theorem keysAllowed_jSet {k2 : String} {w : Json} {l : List (String × Json)}
    (hk2 : allowedTopLevelProps.contains k2 = true) (h : keysAllowed l) :
    keysAllowed (jSet k2 w l) := by
  intro k v hm
  rcases mem_jSet hm with h1 | h1
  · exact h k v h1
  · rw [h1.1]; exact hk2

theorem keysAllowed_stepType {l : List (String × Json)} (h : keysAllowed l) :
    keysAllowed (stepType l) := by
  intro k v hm
  rcases mem_stepType hm with h1 | h1
  · exact h k v h1
  · rw [h1]; decide

theorem keysAllowed_stepRequired {l : List (String × Json)} (h : keysAllowed l) :
    keysAllowed (stepRequired l) := by
  intro k v hm
  rcases mem_stepRequired hm with h1 | h1
  · exact h k v h1
  · rw [h1]; decide

theorem mem_stepPattern {rv : String → Bool} {k : String} {v : Json}
    {l : List (String × Json)} (h : (k, v) ∈ stepPattern rv l) :
    (k, v) ∈ l ∨ k = "pattern" := by
  unfold stepPattern at h
  split at h
  · split at h
    · exact Or.inl h
    · split at h
      · exact Or.inl h
      · dsimp only at h
        split at h
        · rcases mem_jSet h with h1 | h1
          · exact Or.inl h1
          · exact Or.inr h1.1
        · exact Or.inl (mem_jDel h)
  · exact Or.inl h

theorem keysAllowed_stepPattern {rv : String → Bool} {l : List (String × Json)}
    (h : keysAllowed l) : keysAllowed (stepPattern rv l) := by
  intro k v hm
  rcases mem_stepPattern hm with h1 | h1
  · exact h k v h1
  · rw [h1]; decide

theorem stepAllow_of_keysAllowed {l : List (String × Json)} (h : keysAllowed l) :
    stepAllow l = l := by
  unfold stepAllow
  apply List.filter_eq_self.mpr
  intro p hp
  cases p with
  | mk k v => simpa using h k v hp

theorem jGet_none_of_not_allowed {k : String} {l : List (String × Json)}
    (h : keysAllowed l) (hk : allowedTopLevelProps.contains k = false) : jGet k l = none := by
  cases hg : jGet k l with
  | none => rfl
  | some v =>
    have hm := jGet_eq_some_mem hg
    have := h k v hm
    rw [hk] at this
    exact absurd this (by simp)

/-- Keys of `jSet` come from the list or are the new key. -/
theorem keys_jSet {a k2 : String} {w : Json} {l : List (String × Json)}
    (h : a ∈ (jSet k2 w l).map Prod.fst) : a ∈ l.map Prod.fst ∨ a = k2 := by
  rcases List.mem_map.mp h with ⟨p, hp, hfst⟩
  cases p with
  | mk k v =>
    rcases mem_jSet hp with h1 | h1
    · exact Or.inl (hfst ▸ List.mem_map.mpr ⟨(k, v), h1, rfl⟩)
    · exact Or.inr (by rw [← hfst]; exact h1.1)

theorem keysNodup_jSet {k2 : String} {w : Json} {l : List (String × Json)}
    (h : keysNodup l) : keysNodup (jSet k2 w l) := by
  induction l with
  | nil => unfold keysNodup jSet; simp
  | cons p rest ih =>
    cases p with
    | mk k1 v1 =>
      unfold keysNodup at h
      rw [List.map_cons, List.nodup_cons] at h
      by_cases h1 : k1 = k2
      · unfold keysNodup jSet
        rw [if_pos h1, List.map_cons, List.nodup_cons]
        exact ⟨h1 ▸ h.1, h.2⟩
      · unfold keysNodup jSet
        rw [if_neg h1, List.map_cons, List.nodup_cons]
        refine ⟨?_, ih h.2⟩
        intro hmem
        rcases keys_jSet hmem with h2 | h2
        · exact h.1 h2
        · exact h1 h2

theorem keysNodup_filter {p : String × Json → Bool} {l : List (String × Json)}
    (h : keysNodup l) : keysNodup (l.filter p) := by
  unfold keysNodup at *
  exact ((List.filter_sublist l).map Prod.fst).nodup h

theorem keysNodup_jDel {k2 : String} {l : List (String × Json)} (h : keysNodup l) :
    keysNodup (jDel k2 l) := keysNodup_filter h

theorem keysNodup_stepAllow {l : List (String × Json)} (h : keysNodup l) :
    keysNodup (stepAllow l) := keysNodup_filter h

theorem keysNodup_stepType {l : List (String × Json)} (h : keysNodup l) :
    keysNodup (stepType l) := by
  unfold stepType
  split
  · split
    · exact h
    · exact keysNodup_jSet h
  · exact h
  · exact keysNodup_jSet h

theorem keysNodup_stepRequired {l : List (String × Json)} (h : keysNodup l) :
    keysNodup (stepRequired l) := by
  unfold stepRequired
  split
  · split
    · split
      · split
        · exact keysNodup_jDel h
        · exact keysNodup_jSet h
      · exact keysNodup_jDel h
    · exact h
  · exact h

theorem keysNodup_stepPattern {rv : String → Bool} {l : List (String × Json)}
    (h : keysNodup l) : keysNodup (stepPattern rv l) := by
  unfold stepPattern
  split
  · split
    · exact h
    · split
      · exact h
      · dsimp only
        split
        · exact keysNodup_jSet h
        · exact keysNodup_jDel h
  · exact h

/-- Entries of the final pass's output come from its input. -/
theorem mem_finalPass {k : String} {v : Json} :
    ∀ {l l2 : List (String × Json)}, finalPass l = .ok l2 → (k, v) ∈ l2 → (k, v) ∈ l := by
  intro l
  induction l with
  | nil =>
    intro l2 h hm
    have h2 : Except.ok ([] : List (String × Json)) = Except.ok l2 := h
    injection h2 with h3
    rw [← h3] at hm
    exact absurd hm (by simp)
  | cons p rest ih =>
    intro l2 h hm
    cases p with
    | mk k1 v1 =>
      unfold finalPass at h
      by_cases hv1 : v1 = Json.null
      · rw [if_pos hv1] at h
        split at h
        · exact List.mem_cons_of_mem _ (ih h hm)
        · exact absurd h (by simp)
      · rw [if_neg hv1] at h
        by_cases hk1 : keepVal k1 v1
        · rw [if_pos hk1] at h
          rcases except_bind_ok.mp h with ⟨rest2, h2, h3⟩
          have h4 : Except.ok ((k1, v1) :: rest2) = Except.ok l2 := h3
          injection h4 with h5
          rw [← h5] at hm
          rcases List.mem_cons.mp hm with h6 | h6
          · exact List.mem_cons.mpr (Or.inl h6)
          · exact List.mem_cons_of_mem _ (ih h2 h6)
        · rw [if_neg hk1] at h
          exact List.mem_cons_of_mem _ (ih h hm)

/-- Every entry the final pass keeps is non-null and passes the keep test. -/
theorem finalPass_invariant {k : String} {v : Json} :
    ∀ {l l2 : List (String × Json)}, finalPass l = .ok l2 → (k, v) ∈ l2 →
      v ≠ Json.null ∧ keepVal k v = true := by
  intro l
  induction l with
  | nil =>
    intro l2 h hm
    have h2 : Except.ok ([] : List (String × Json)) = Except.ok l2 := h
    injection h2 with h3
    rw [← h3] at hm
    exact absurd hm (by simp)
  | cons p rest ih =>
    intro l2 h hm
    cases p with
    | mk k1 v1 =>
      unfold finalPass at h
      by_cases hv1 : v1 = Json.null
      · rw [if_pos hv1] at h
        split at h
        · exact ih h hm
        · exact absurd h (by simp)
      · rw [if_neg hv1] at h
        by_cases hk1 : keepVal k1 v1
        · rw [if_pos hk1] at h
          rcases except_bind_ok.mp h with ⟨rest2, h2, h3⟩
          have h4 : Except.ok ((k1, v1) :: rest2) = Except.ok l2 := h3
          injection h4 with h5
          rw [← h5] at hm
          rcases List.mem_cons.mp hm with h6 | h6
          · have h7 : k = k1 ∧ v = v1 := by
              constructor
              · exact congrArg Prod.fst h6
              · exact congrArg Prod.snd h6
            rw [h7.1, h7.2]
            exact ⟨hv1, hk1⟩
          · exact ih h2 h6
        · rw [if_neg hk1] at h
          exact ih h hm

/-- The final pass is the identity on a list it fully keeps. -/
theorem finalPass_id :
    ∀ {l : List (String × Json)},
      (∀ k v, (k, v) ∈ l → v ≠ Json.null ∧ keepVal k v = true) → finalPass l = .ok l := by
  intro l
  induction l with
  | nil => intro _; rfl
  | cons p rest ih =>
    intro h
    cases p with
    | mk k1 v1 =>
      have h1 := h k1 v1 (List.mem_cons_self _ _)
      unfold finalPass
      rw [if_neg h1.1, if_pos h1.2]
      rw [ih (fun k v hm => h k v (List.mem_cons_of_mem _ hm))]
      rfl

/-- A null value the final pass accepts sits under `properties` or `default`. -/
theorem finalPass_null_mem {k : String} :
    ∀ {l l2 : List (String × Json)}, finalPass l = .ok l2 → (k, Json.null) ∈ l →
      k = "properties" ∨ k = "default" := by
  intro l
  induction l with
  | nil =>
    intro l2 _ hm
    exact absurd hm (by simp)
  | cons p rest ih =>
    intro l2 h hm
    cases p with
    | mk k1 v1 =>
      unfold finalPass at h
      rcases List.mem_cons.mp hm with h6 | h6
      · have h7 : k = k1 ∧ Json.null = v1 := by
          constructor
          · exact congrArg Prod.fst h6
          · exact congrArg Prod.snd h6
        rw [if_pos h7.2.symm] at h
        split at h
        · next hcond => rw [h7.1]; exact hcond
        · exact absurd h (by simp)
      · by_cases hv1 : v1 = Json.null
        · rw [if_pos hv1] at h
          split at h
          · exact ih h h6
          · exact absurd h (by simp)
        · rw [if_neg hv1] at h
          by_cases hk1 : keepVal k1 v1
          · rw [if_pos hk1] at h
            rcases except_bind_ok.mp h with ⟨rest2, h2, _⟩
            exact ih h2 h6
          · rw [if_neg hk1] at h
            exact ih h h6

/-- The final pass never invents a key. -/
theorem finalPass_jGet_none {k : String} {l l2 : List (String × Json)}
    (h : finalPass l = .ok l2) (hg : jGet k l = none) : jGet k l2 = none := by
  cases hg2 : jGet k l2 with
  | none => rfl
  | some v =>
    exact absurd (mem_finalPass h (jGet_eq_some_mem hg2)) (not_mem_of_jGet_none hg)

/-- Under unique keys, a dropped entry's key is gone from the final pass's
output. -/
theorem finalPass_jGet_drop {k : String} {v : Json} :
    ∀ {l l2 : List (String × Json)}, finalPass l = .ok l2 → keysNodup l →
      jGet k l = some v → (v = Json.null ∨ keepVal k v = false) → jGet k l2 = none := by
  intro l
  induction l with
  | nil =>
    intro l2 _ _ hg
    rw [jGet_nil] at hg
    exact absurd hg (by simp)
  | cons p rest ih =>
    intro l2 h hnd hg hdrop
    cases p with
    | mk k1 v1 =>
      have hnd2 : k1 ∉ rest.map Prod.fst ∧ keysNodup rest := by
        unfold keysNodup at hnd
        rw [List.map_cons, List.nodup_cons] at hnd
        exact hnd
      rw [jGet_cons] at hg
      unfold finalPass at h
      by_cases h1 : k1 = k
      · rw [if_pos h1] at hg
        injection hg with hg2
        have hrest : jGet k rest = none :=
          jGet_eq_none_of_not_mem _ _ (h1 ▸ hnd2.1)
        rcases hdrop with hnull | hkeep
        · rw [if_pos (hg2.symm ▸ hnull)] at h
          split at h
          · exact finalPass_jGet_none h hrest
          · exact absurd h (by simp)
        · by_cases hv1 : v1 = Json.null
          · rw [if_pos hv1] at h
            split at h
            · exact finalPass_jGet_none h hrest
            · exact absurd h (by simp)
          · rw [if_neg hv1] at h
            have hkeep2 : ¬ keepVal k1 v1 = true := by
              rw [h1, hg2, hkeep]
              simp
            rw [if_neg hkeep2] at h
            exact finalPass_jGet_none h hrest
      · rw [if_neg h1] at hg
        by_cases hv1 : v1 = Json.null
        · rw [if_pos hv1] at h
          split at h
          · exact ih h hnd2.2 hg hdrop
          · exact absurd h (by simp)
        · rw [if_neg hv1] at h
          by_cases hk1 : keepVal k1 v1
          · rw [if_pos hk1] at h
            rcases except_bind_ok.mp h with ⟨rest2, h2, h3⟩
            have h4 : Except.ok ((k1, v1) :: rest2) = Except.ok l2 := h3
            injection h4 with h5
            rw [← h5, jGet_cons, if_neg h1]
            exact ih h2 hnd2.2 hg hdrop
          · rw [if_neg hk1] at h
            exact ih h hnd2.2 hg hdrop

/-! ## C5 support: stage case analyses -/

theorem propsStage_of_none {rv : String → Bool} {l : List (String × Json)}
    (h : jGet "properties" l = none) : propsStage rv l = .ok l := by
  unfold propsStage
  rw [h]
  rfl

theorem itemsGateStage_of_none {l : List (String × Json)} (h : jGet "items" l = none) :
    itemsGateStage l = l := by
  unfold itemsGateStage
  rw [h]

theorem itemsStage_of_none {rv : String → Bool} {l : List (String × Json)}
    (h : jGet "items" l = none) : itemsStage rv l = .ok l := by
  unfold itemsStage
  rw [h]
  rfl

theorem combStage_of_none {rv : String → Bool} {key : String} {l : List (String × Json)}
    (h : jGet key l = none) : combStage rv key l = .ok l := by
  unfold combStage
  rw [h]
  rfl

theorem notStage_of_none {rv : String → Bool} {l : List (String × Json)}
    (h : jGet "not" l = none) : notStage rv l = .ok l := by
  unfold notStage
  rw [h]
  rfl

theorem jGet_stepType_ne {k : String} (hk : k ≠ "type") (l : List (String × Json)) :
    jGet k (stepType l) = jGet k l := by
  unfold stepType
  split
  · split
    · rfl
    · rw [jGet_jSet_ne _ _ _ _ hk]
  · rfl
  · rw [jGet_jSet_ne _ _ _ _ hk]

theorem jGet_prefixStages_ne {k : String} (hka : allowedTopLevelProps.contains k = true)
    (hkt : k ≠ "type") (fs0 : List (String × Json)) :
    jGet k (prefixStages fs0) = jGet k fs0 := by
  have hkn : k ≠ "nullable" := by
    intro he
    rw [he] at hka
    exact absurd hka (by decide)
  have hks : k ≠ "$schema" := by
    intro he
    rw [he] at hka
    exact absurd hka (by decide)
  unfold prefixStages
  rw [jGet_jDel_ne _ _ _ hkn, jGet_stepType_ne hkt, jGet_stepAllow hka,
    jGet_jDel_ne _ _ _ hks]

theorem stepType_id_of_valid {l : List (String × Json)} {s : String}
    (hg : jGet "type" l = some (Json.str s)) (hc : validTypes.contains s = true) :
    stepType l = l := by
  unfold stepType
  rw [hg]
  exact if_pos hc

theorem stepRequired_of_none {l : List (String × Json)} (h : jGet "required" l = none) :
    stepRequired l = l := by
  unfold stepRequired
  rw [h]

theorem stepRequired_of_falsy {l : List (String × Json)} {v : Json}
    (h : jGet "required" l = some v) (ht : truthy v = false) : stepRequired l = l := by
  unfold stepRequired
  rw [h]
  exact if_neg (by rw [ht]; simp)

theorem stepRequired_of_arr {l : List (String × Json)} {es : List Json}
    (h : jGet "required" l = some (Json.arr es)) :
    stepRequired l =
      if (requiredFilter es).isEmpty then jDel "required" l
      else jSet "required" (Json.arr (requiredFilter es)) l := by
  unfold stepRequired
  rw [h]
  exact if_pos rfl

theorem stepRequired_of_truthy_nonarr {l : List (String × Json)} {v : Json}
    (h : jGet "required" l = some v) (ht : truthy v = true)
    (harr : ∀ es, v ≠ Json.arr es) : stepRequired l = jDel "required" l := by
  cases v with
  | arr es => exact absurd rfl (harr es)
  | null =>
    unfold stepRequired
    rw [h]
    exact if_pos ht
  | bool b =>
    unfold stepRequired
    rw [h]
    exact if_pos ht
  | num n =>
    unfold stepRequired
    rw [h]
    exact if_pos ht
  | str s =>
    unfold stepRequired
    rw [h]
    exact if_pos ht
  | obj gs =>
    unfold stepRequired
    rw [h]
    exact if_pos ht

theorem stepPattern_of_other {rv : String → Bool} {l : List (String × Json)}
    (h : ∀ s, jGet "pattern" l ≠ some (Json.str s)) : stepPattern rv l = l := by
  unfold stepPattern
  split
  · next s heq => exact absurd heq (h s)
  · rfl

theorem stepPattern_of_ok {rv : String → Bool} {l : List (String × Json)} {s : String}
    (h : jGet "pattern" l = some (Json.str s)) (hs : s ≠ "") (hrv : rv s = true) :
    stepPattern rv l = l := by
  unfold stepPattern
  rw [h]
  show (if s = "" then l else if rv s = true then l else
    let s2 := fixBackslashes s
    if rv s2 = true then jSet "pattern" (Json.str s2) l else jDel "pattern" l) = l
  rw [if_neg hs, if_pos hrv]

theorem stepPattern_of_empty {rv : String → Bool} {l : List (String × Json)}
    (h : jGet "pattern" l = some (Json.str "")) : stepPattern rv l = l := by
  unfold stepPattern
  rw [h]
  rfl

theorem stepPattern_of_fix {rv : String → Bool} {l : List (String × Json)} {s : String}
    (h : jGet "pattern" l = some (Json.str s)) (hs : s ≠ "") (hrv : rv s = false)
    (hfix : rv (fixBackslashes s) = true) :
    stepPattern rv l = jSet "pattern" (Json.str (fixBackslashes s)) l := by
  unfold stepPattern
  rw [h]
  show (if s = "" then l else if rv s = true then l else
    let s2 := fixBackslashes s
    if rv s2 = true then jSet "pattern" (Json.str s2) l else jDel "pattern" l) = _
  rw [if_neg hs, if_neg (by rw [hrv]; simp)]
  dsimp only
  rw [if_pos hfix]

theorem stepPattern_of_bad {rv : String → Bool} {l : List (String × Json)} {s : String}
    (h : jGet "pattern" l = some (Json.str s)) (hs : s ≠ "") (hrv : rv s = false)
    (hfix : rv (fixBackslashes s) = false) : stepPattern rv l = jDel "pattern" l := by
  unfold stepPattern
  rw [h]
  show (if s = "" then l else if rv s = true then l else
    let s2 := fixBackslashes s
    if rv s2 = true then jSet "pattern" (Json.str s2) l else jDel "pattern" l) = _
  rw [if_neg hs, if_neg (by rw [hrv]; simp)]
  dsimp only
  rw [if_neg (by rw [hfix]; simp)]

theorem filter_idem {α : Type} (p : α → Bool) (l : List α) :
    (l.filter p).filter p = l.filter p := by
  induction l with
  | nil => rfl
  | cons x rest ih =>
    by_cases hp : p x
    · rw [List.filter_cons_of_pos hp, List.filter_cons_of_pos hp, ih]
    · rw [List.filter_cons_of_neg hp, ih]

theorem requiredFilter_idem (es : List Json) :
    requiredFilter (requiredFilter es) = requiredFilter es := by
  unfold requiredFilter
  exact filter_idem _ es

theorem fixChars_ne_nil {cs : List Char} (h : cs ≠ []) : fixChars cs ≠ [] := by
  cases cs with
  | nil => exact absurd rfl h
  | cons c rest =>
    unfold fixChars
    split
    · rename_i heq
      exact absurd heq (by simp)
    · rename_i rest2 heq
      cases rest2 with
      | nil => simp
      | cons c2 rest3 => by_cases he : escOk c2 <;> simp [he]
    · simp

theorem fixBackslashes_ne_empty {s : String} (h : s ≠ "") : fixBackslashes s ≠ "" := by
  intro he
  have hd : (fixBackslashes s).data = "".data := congrArg String.data he
  unfold fixBackslashes at hd
  have hne : s.data ≠ [] := by
    intro hnil
    apply h
    cases s with
    | mk data => cases hnil; rfl
  exact fixChars_ne_nil hne hd

theorem keepVal_required_arr {es : List Json} (h : es ≠ []) :
    keepVal "required" (Json.arr es) = true := by
  cases es with
  | nil => exact absurd rfl h
  | cons e rest => rfl

theorem requiredFilter_ne_nil_of_not_isEmpty {es : List Json}
    (h : (requiredFilter es).isEmpty = false) : requiredFilter es ≠ [] := by
  intro he
  rw [he] at h
  simp at h

/-! ## Claim theorems: normalizer idempotence (C5) -/

theorem keepVal_str {k t : String} (h : t ≠ "") : keepVal k (Json.str t) = true := by
  simp [keepVal, h]

/-- C5 counterexample: the normalizer is not idempotent.  `{"type": []}` is
normalized to `{}` (the final pass drops the empty array and nothing restores
a `type`), but normalizing `{}` yields `{"type": "object"}`. -/
theorem idempotence_counterexample :
    cleanJsonSchema rvTrue (Json.obj [("type", Json.arr [])]) = .ok (Json.obj []) ∧
    cleanJsonSchema rvTrue (Json.obj []) = .ok (Json.obj [("type", Json.str "object")]) ∧
    (Json.obj [("type", Json.str "object")] : Json) ≠ Json.obj [] := by
  refine ⟨?_, ?_, by decide⟩
  · rw [cleanJsonSchema_obj, cleanFields_peel]
    decide
  · rw [cleanJsonSchema_obj, cleanFields_peel]
    decide

/-- C5 (amended): the Schema Normalizer is idempotent on flat object schemas.
When the input object has no duplicate keys, carries none of the
recursively-cleaned keys (`properties`, `items`, `anyOf`, `oneOf`, `allOf`,
`not`), and its `type` is a string or absent, then renormalizing the
normalizer's output returns that output unchanged.  (Idempotence fails in
general: see the counterexample, where the final cleanup pass drops an
empty-array `type` and renormalization then re-defaults it.) -/
theorem cleanJsonSchema_idempotent_flat (rv : String → Bool)
    (fs : List (String × Json)) (y : Json)
    (hnd : keysNodup fs)
    (hp : jGet "properties" fs = none) (hi : jGet "items" fs = none)
    (ha : jGet "anyOf" fs = none) (ho : jGet "oneOf" fs = none)
    (hl : jGet "allOf" fs = none) (hn : jGet "not" fs = none)
    (ht : jGet "type" fs = none ∨ ∃ s, jGet "type" fs = some (Json.str s))
    (hok : cleanJsonSchema rv (Json.obj fs) = .ok y) :
    cleanJsonSchema rv y = .ok y := by
  rw [cleanJsonSchema_obj] at hok
  rcases except_bind_ok.mp hok with ⟨ys, hys, hpure⟩
  have hpure2 : Except.ok (Json.obj ys) = Except.ok y := hpure
  injection hpure2 with hy
  subst hy
  rcases cleanFields_ok_iff.mp hys with ⟨c5, c7, c9, c10, c11, c12, h5, h7, h9, h10, h11, h12, hfp⟩
  have hc5 : c5 = prefixStages fs := by
    rw [propsStage_of_none (by rw [@jGet_prefixStages_ne "properties" (by decide) (by decide) fs]; exact hp)] at h5
    injection h5 with hb
    exact hb.symm
  subst hc5
  have hgate : itemsGateStage (prefixStages fs) = prefixStages fs :=
    itemsGateStage_of_none (by rw [@jGet_prefixStages_ne "items" (by decide) (by decide) fs]; exact hi)
  rw [hgate] at h7
  have hc7 : c7 = prefixStages fs := by
    rw [itemsStage_of_none (by rw [@jGet_prefixStages_ne "items" (by decide) (by decide) fs]; exact hi)] at h7
    injection h7 with hb
    exact hb.symm
  subst hc7
  have hc9 : c9 = stepRequired (prefixStages fs) := by
    rw [combStage_of_none (by
      rw [@jGet_stepRequired "anyOf" (by decide) _,
        @jGet_prefixStages_ne "anyOf" (by decide) (by decide) fs]
      exact ha)] at h9
    injection h9 with hb
    exact hb.symm
  subst hc9
  have hc10 : c10 = stepRequired (prefixStages fs) := by
    rw [combStage_of_none (by
      rw [@jGet_stepRequired "oneOf" (by decide) _,
        @jGet_prefixStages_ne "oneOf" (by decide) (by decide) fs]
      exact ho)] at h10
    injection h10 with hb
    exact hb.symm
  subst hc10
  have hc11 : c11 = stepRequired (prefixStages fs) := by
    rw [combStage_of_none (by
      rw [@jGet_stepRequired "allOf" (by decide) _,
        @jGet_prefixStages_ne "allOf" (by decide) (by decide) fs]
      exact hl)] at h11
    injection h11 with hb
    exact hb.symm
  subst hc11
  have hc12 : c12 = stepRequired (prefixStages fs) := by
    rw [notStage_of_none (by
      rw [@jGet_stepRequired "not" (by decide) _,
        @jGet_prefixStages_ne "not" (by decide) (by decide) fs]
      exact hn)] at h12
    injection h12 with hb
    exact hb.symm
  subst hc12
  have kaP : keysAllowed (prefixStages fs) := by
    unfold prefixStages
    exact keysAllowed_jDel (keysAllowed_stepType (keysAllowed_stepAllow _))
  have kaS : keysAllowed (stepPattern rv (stepRequired (prefixStages fs))) :=
    keysAllowed_stepPattern (keysAllowed_stepRequired kaP)
  have kaY : keysAllowed ys := fun k v hm => kaS k v (mem_finalPass hfp hm)
  have ndP : keysNodup (prefixStages fs) := by
    unfold prefixStages
    exact keysNodup_jDel (keysNodup_stepType (keysNodup_stepAllow (keysNodup_jDel hnd)))
  have ndS : keysNodup (stepPattern rv (stepRequired (prefixStages fs))) :=
    keysNodup_stepPattern (keysNodup_stepRequired ndP)
  have habsent : ∀ k2, k2 ≠ "type" → k2 ≠ "required" → k2 ≠ "pattern" →
      allowedTopLevelProps.contains k2 = true → jGet k2 fs = none → jGet k2 ys = none := by
    intro k2 hkt hkr hkp hka hnone
    apply finalPass_jGet_none hfp
    rw [jGet_stepPattern hkp, jGet_stepRequired hkr, jGet_prefixStages_ne hka hkt fs]
    exact hnone
  have htypeP : ∃ T, jGet "type" (prefixStages fs) = some (Json.str T) ∧
      validTypes.contains T = true := by
    rcases ht with hnone | ⟨s, hs⟩
    · exact ⟨"object", by rw [jGet_type_prefixStages, hnone], by decide⟩
    · by_cases hc : validTypes.contains s
      · refine ⟨s, ?_, hc⟩
        rw [jGet_type_prefixStages, hs]
        have hm : s ∈ validTypes := by simpa using hc
        simp [hm]
      · refine ⟨"string", ?_, by decide⟩
        rw [jGet_type_prefixStages, hs]
        have hm : s ∉ validTypes := by simpa using hc
        simp [hm]
  rcases htypeP with ⟨T, hTP, hTvalid⟩
  have hTne : T ≠ "" := valid_type_ne_empty hTvalid
  have hTy : jGet "type" ys = some (Json.str T) := by
    apply finalPass_jGet hfp ?_ (by simp) (keepVal_str hTne)
    rw [@jGet_stepPattern rv "type" (by decide) _, @jGet_stepRequired "type" (by decide) _]
    exact hTP
  have hPrefixY : prefixStages ys = ys := by
    unfold prefixStages
    rw [jDel_of_jGet_none (jGet_none_of_not_allowed kaY (by decide)),
      stepAllow_of_keysAllowed kaY, stepType_id_of_valid hTy hTvalid,
      jDel_of_jGet_none (jGet_none_of_not_allowed kaY (by decide))]
  have hpY : jGet "properties" ys = none :=
    habsent _ (by decide) (by decide) (by decide) (by decide) hp
  have hiY : jGet "items" ys = none :=
    habsent _ (by decide) (by decide) (by decide) (by decide) hi
  have haY : jGet "anyOf" ys = none :=
    habsent _ (by decide) (by decide) (by decide) (by decide) ha
  have hoY : jGet "oneOf" ys = none :=
    habsent _ (by decide) (by decide) (by decide) (by decide) ho
  have hlY : jGet "allOf" ys = none :=
    habsent _ (by decide) (by decide) (by decide) (by decide) hl
  have hnY : jGet "not" ys = none :=
    habsent _ (by decide) (by decide) (by decide) (by decide) hn
  have hReqY : stepRequired ys = ys := by
    cases hr : jGet "required" (prefixStages fs) with
    | none =>
      apply stepRequired_of_none
      apply finalPass_jGet_none hfp
      rw [@jGet_stepPattern rv "required" (by decide) _, stepRequired_of_none hr]
      exact hr
    | some v =>
      by_cases htv : truthy v
      · cases v with
        | arr es =>
          by_cases hemp : (requiredFilter es).isEmpty
          · apply stepRequired_of_none
            apply finalPass_jGet_none hfp
            rw [@jGet_stepPattern rv "required" (by decide) _, stepRequired_of_arr hr,
              if_pos hemp, jGet_jDel_self]
          · have hfes : requiredFilter es ≠ [] :=
              requiredFilter_ne_nil_of_not_isEmpty (by simpa using hemp)
            have hgR : jGet "required" (stepRequired (prefixStages fs)) =
                some (Json.arr (requiredFilter es)) := by
              rw [stepRequired_of_arr hr, if_neg hemp, jGet_jSet_self]
            have hgY : jGet "required" ys = some (Json.arr (requiredFilter es)) := by
              apply finalPass_jGet hfp ?_ (by simp) (keepVal_required_arr hfes)
              rw [@jGet_stepPattern rv "required" (by decide) _]
              exact hgR
            rw [stepRequired_of_arr hgY, requiredFilter_idem, if_neg hemp]
            exact jSet_of_jGet_eq hgY
        | null =>
          apply stepRequired_of_none
          apply finalPass_jGet_none hfp
          rw [@jGet_stepPattern rv "required" (by decide) _,
            stepRequired_of_truthy_nonarr hr htv (fun es => by simp), jGet_jDel_self]
        | bool b =>
          apply stepRequired_of_none
          apply finalPass_jGet_none hfp
          rw [@jGet_stepPattern rv "required" (by decide) _,
            stepRequired_of_truthy_nonarr hr htv (fun es => by simp), jGet_jDel_self]
        | num n =>
          apply stepRequired_of_none
          apply finalPass_jGet_none hfp
          rw [@jGet_stepPattern rv "required" (by decide) _,
            stepRequired_of_truthy_nonarr hr htv (fun es => by simp), jGet_jDel_self]
        | str s =>
          apply stepRequired_of_none
          apply finalPass_jGet_none hfp
          rw [@jGet_stepPattern rv "required" (by decide) _,
            stepRequired_of_truthy_nonarr hr htv (fun es => by simp), jGet_jDel_self]
        | obj gs =>
          apply stepRequired_of_none
          apply finalPass_jGet_none hfp
          rw [@jGet_stepPattern rv "required" (by decide) _,
            stepRequired_of_truthy_nonarr hr htv (fun es => by simp), jGet_jDel_self]
      · have hid : stepRequired (prefixStages fs) = prefixStages fs :=
          stepRequired_of_falsy hr (by simpa using htv)
        have hgS : jGet "required" (stepPattern rv (stepRequired (prefixStages fs))) =
            some v := by
          rw [@jGet_stepPattern rv "required" (by decide) _, hid]
          exact hr
        cases v with
        | null =>
          have hmem := jGet_eq_some_mem hgS
          rcases finalPass_null_mem hfp hmem with h1 | h1 <;> exact absurd h1 (by decide)
        | str s =>
          have hs : s = "" := by
            by_contra hne
            exact htv (by simp [truthy, hne])
          subst hs
          apply stepRequired_of_none
          exact finalPass_jGet_drop hfp ndS hgS (Or.inr (by decide))
        | bool b =>
          cases b with
          | true => exact absurd (by simp [truthy]) htv
          | false =>
            have hgY : jGet "required" ys = some (Json.bool false) :=
              finalPass_jGet hfp hgS (by simp) (by decide)
            exact stepRequired_of_falsy hgY (by decide)
        | num n =>
          have hn0 : n = 0 := by
            by_contra hne
            exact htv (by simp [truthy, hne])
          subst hn0
          have hgY : jGet "required" ys = some (Json.num 0) :=
            finalPass_jGet hfp hgS (by simp) (by decide)
          exact stepRequired_of_falsy hgY (by decide)
        | arr es => exact absurd (by simp [truthy]) htv
        | obj gs => exact absurd (by simp [truthy]) htv
  have hPatY : stepPattern rv ys = ys := by
    cases hq : jGet "pattern" (stepRequired (prefixStages fs)) with
    | none =>
      have hyn : jGet "pattern" ys = none := by
        apply finalPass_jGet_none hfp
        rw [stepPattern_of_other (fun s hs => by rw [hq] at hs; cases hs)]
        exact hq
      apply stepPattern_of_other
      intro s hs
      rw [hyn] at hs
      cases hs
    | some v =>
      cases v with
      | str s =>
        by_cases hs0 : s = ""
        · subst hs0
          have hgS2 : jGet "pattern" (stepPattern rv (stepRequired (prefixStages fs))) =
              some (Json.str "") := by
            rw [stepPattern_of_empty hq]
            exact hq
          have hyn : jGet "pattern" ys = none :=
            finalPass_jGet_drop hfp ndS hgS2 (Or.inr (by decide))
          apply stepPattern_of_other
          intro s2 hs2
          rw [hyn] at hs2
          cases hs2
        · by_cases hrv : rv s
          · have hgY : jGet "pattern" ys = some (Json.str s) := by
              apply finalPass_jGet hfp ?_ (by simp) (keepVal_str hs0)
              rw [stepPattern_of_ok hq hs0 hrv]
              exact hq
            exact stepPattern_of_ok hgY hs0 hrv
          · by_cases hfx : rv (fixBackslashes s)
            · have hfne : fixBackslashes s ≠ "" := fixBackslashes_ne_empty hs0
              have hgY : jGet "pattern" ys = some (Json.str (fixBackslashes s)) := by
                apply finalPass_jGet hfp ?_ (by simp) (keepVal_str hfne)
                rw [stepPattern_of_fix hq hs0 (by simpa using hrv) hfx, jGet_jSet_self]
              exact stepPattern_of_ok hgY hfne hfx
            · have hyn : jGet "pattern" ys = none := by
                apply finalPass_jGet_none hfp
                rw [stepPattern_of_bad hq hs0 (by simpa using hrv) (by simpa using hfx),
                  jGet_jDel_self]
              apply stepPattern_of_other
              intro s2 hs2
              rw [hyn] at hs2
              cases hs2
      | null =>
        have hgS : jGet "pattern" (stepPattern rv (stepRequired (prefixStages fs))) =
            some Json.null := by
          rw [stepPattern_of_other (fun s hs => by rw [hq] at hs; cases hs)]
          exact hq
        have hmem := jGet_eq_some_mem hgS
        rcases finalPass_null_mem hfp hmem with h1 | h1 <;> exact absurd h1 (by decide)
      | bool b =>
        have hgS : jGet "pattern" (stepPattern rv (stepRequired (prefixStages fs))) =
            some (Json.bool b) := by
          rw [stepPattern_of_other (fun s hs => by rw [hq] at hs; cases hs)]
          exact hq
        by_cases hkeep : keepVal "pattern" (Json.bool b)
        · have hgY : jGet "pattern" ys = some (Json.bool b) :=
            finalPass_jGet hfp hgS (by simp) hkeep
          apply stepPattern_of_other
          intro s2 hs2
          rw [hgY] at hs2
          cases hs2
        · have hyn : jGet "pattern" ys = none :=
            finalPass_jGet_drop hfp ndS hgS (Or.inr (by simpa using hkeep))
          apply stepPattern_of_other
          intro s2 hs2
          rw [hyn] at hs2
          cases hs2
      | num n =>
        have hgS : jGet "pattern" (stepPattern rv (stepRequired (prefixStages fs))) =
            some (Json.num n) := by
          rw [stepPattern_of_other (fun s hs => by rw [hq] at hs; cases hs)]
          exact hq
        by_cases hkeep : keepVal "pattern" (Json.num n)
        · have hgY : jGet "pattern" ys = some (Json.num n) :=
            finalPass_jGet hfp hgS (by simp) hkeep
          apply stepPattern_of_other
          intro s2 hs2
          rw [hgY] at hs2
          cases hs2
        · have hyn : jGet "pattern" ys = none :=
            finalPass_jGet_drop hfp ndS hgS (Or.inr (by simpa using hkeep))
          apply stepPattern_of_other
          intro s2 hs2
          rw [hyn] at hs2
          cases hs2
      | arr es =>
        have hgS : jGet "pattern" (stepPattern rv (stepRequired (prefixStages fs))) =
            some (Json.arr es) := by
          rw [stepPattern_of_other (fun s hs => by rw [hq] at hs; cases hs)]
          exact hq
        by_cases hkeep : keepVal "pattern" (Json.arr es)
        · have hgY : jGet "pattern" ys = some (Json.arr es) :=
            finalPass_jGet hfp hgS (by simp) hkeep
          apply stepPattern_of_other
          intro s2 hs2
          rw [hgY] at hs2
          cases hs2
        · have hyn : jGet "pattern" ys = none :=
            finalPass_jGet_drop hfp ndS hgS (Or.inr (by simpa using hkeep))
          apply stepPattern_of_other
          intro s2 hs2
          rw [hyn] at hs2
          cases hs2
      | obj gs =>
        have hgS : jGet "pattern" (stepPattern rv (stepRequired (prefixStages fs))) =
            some (Json.obj gs) := by
          rw [stepPattern_of_other (fun s hs => by rw [hq] at hs; cases hs)]
          exact hq
        by_cases hkeep : keepVal "pattern" (Json.obj gs)
        · have hgY : jGet "pattern" ys = some (Json.obj gs) :=
            finalPass_jGet hfp hgS (by simp) hkeep
          apply stepPattern_of_other
          intro s2 hs2
          rw [hgY] at hs2
          cases hs2
        · have hyn : jGet "pattern" ys = none :=
            finalPass_jGet_drop hfp ndS hgS (Or.inr (by simpa using hkeep))
          apply stepPattern_of_other
          intro s2 hs2
          rw [hyn] at hs2
          cases hs2
  rw [cleanJsonSchema_obj]
  apply except_bind_ok.mpr
  refine ⟨ys, ?_, rfl⟩
  apply cleanFields_ok_iff.mpr
  refine ⟨ys, ys, ys, ys, ys, ys, ?_, ?_, ?_, ?_, ?_, ?_, ?_⟩
  · rw [hPrefixY]
    exact propsStage_of_none hpY
  · rw [itemsGateStage_of_none hiY]
    exact itemsStage_of_none hiY
  · rw [hReqY]
    exact combStage_of_none haY
  · exact combStage_of_none hoY
  · exact combStage_of_none hlY
  · exact notStage_of_none hnY
  · rw [hPatY]
    apply finalPass_id
    intro k v hm
    exact finalPass_invariant hfp hm

theorem cleanJsonSchema_idempotent_flat_witness :
    cleanJsonSchema rvTrue (Json.obj [("type", Json.str "object")]) =
      .ok (Json.obj [("type", Json.str "object")]) := by
  have hok : cleanJsonSchema rvTrue (Json.obj [("type", Json.str "object")]) =
      .ok (Json.obj [("type", Json.str "object")]) := by
    rw [cleanJsonSchema_obj, cleanFields_peel]
    decide
  exact cleanJsonSchema_idempotent_flat rvTrue [("type", Json.str "object")]
    (Json.obj [("type", Json.str "object")]) (by decide) (by decide) (by decide)
    (by decide) (by decide) (by decide) (by decide) (Or.inr ⟨"object", by decide⟩) hok
